import Mathlib

/-!
Verification of the deadlock-automation resource engine.

The definitions below are a shallow embedding of the Python sources:
`deadlock_core.py` (Process, ResourceManager with request/release,
Banker safety scan, graph-based deadlock detection and resolution),
`scheduling.py` (FCFS, Round-Robin and Banker-gated schedulers) and
`deadlock_resolution.py` (DeadlockResolver.banker_resolution).
Resource vectors are numpy integer arrays in the source; they are
modelled as `List Int` with componentwise operations.  Python lists of
mutable process objects are modelled as immutable lists updated by
index.  Unbounded `while` loops are modelled with an explicit fuel
argument that provably dominates the number of iterations the Python
loop can perform.
-/

namespace Deadlock

/-- Resource vector: a numpy 1-d integer array. -/
abbrev Vec := List Int

/-- Componentwise `a + b` (numpy elementwise addition of equal-length arrays). -/
def vecAdd (a b : Vec) : Vec := List.zipWith (fun x y => x + y) a b

/-- Componentwise `a - b` (numpy elementwise subtraction). -/
def vecSub (a b : Vec) : Vec := List.zipWith (fun x y => x - y) a b

/-- `np.all(a <= b)` for equal-length arrays. -/
def vecLE (a b : Vec) : Bool := (List.zipWith (fun x y : Int => decide (x ≤ y)) a b).all id

/-- `np.any(a > b)` for equal-length arrays. -/
def vecAnyGT (a b : Vec) : Bool := (List.zipWith (fun x y : Int => decide (y < x)) a b).any id

/-- `Process` from deadlock_core.py: pid plus max / allocated / needed
resource vectors (the scheduling fields live on the scheduler model). -/
structure Process where
  pid : Nat
  max_resources : Vec
  allocated_resources : Vec
  needed_resources : Vec
deriving Repr, DecidableEq

/-- `ResourceManager` from deadlock_core.py: the available-resource vector,
the process list, and the cached `deadlock_processes` list (stored here as
indices into `processes`, since Python stores aliased process objects). -/
structure ResourceManager where
  available_resources : Vec
  processes : List Process
  deadlock_processes : List Nat
deriving Repr, DecidableEq

/-- `next((p for p in processes if p.pid == pid), None)`: the first process
with the given pid, together with its position in the list. -/
def findProc (ps : List Process) (pid : Nat) : Option (Nat × Process) :=
  match ps with
  | [] => none
  | p :: rest =>
    if p.pid = pid then some (0, p)
    else (findProc rest pid).map (fun ip => (ip.1 + 1, ip.2))

/-- One full pass of the inner `for i, p in enumerate(self.processes)` loop of
`ResourceManager.is_safe`: scan the processes from position `i`, marking every
unfinished process whose need fits into `work` and folding its allocation into
`work`; `found` records whether this pass marked anybody. -/
def bankersPass (ps : List Process) (i : Nat) (work : Vec) (finish : List Bool)
    (found : Bool) : Vec × List Bool × Bool :=
  match ps with
  | [] => (work, finish, found)
  | p :: rest =>
    if !(finish.getD i true) && vecLE p.needed_resources work then
      bankersPass rest (i + 1) (vecAdd work p.allocated_resources) (finish.set i true) true
    else
      bankersPass rest (i + 1) work finish found

/-- The `while found:` loop of `ResourceManager.is_safe`.  The Python loop is
unbounded; each productive pass marks at least one further process finished, so
`processes.length + 1` passes always reach the pass that finds nothing. -/
def bankersLoop (ps : List Process) : Nat → Vec → List Bool → Vec × List Bool
  | 0, work, finish => (work, finish)
  | fuel + 1, work, finish =>
    match bankersPass ps 0 work finish false with
    | (w, f, true) => bankersLoop ps fuel w f
    | (w, f, false) => (w, f)

/-- Final `(work, finish)` state of the `is_safe` scan, started from
`work = available_resources` and everything unfinished. -/
def bankersFinal (m : ResourceManager) : Vec × List Bool :=
  bankersLoop m.processes (m.processes.length + 1) m.available_resources
    (List.replicate m.processes.length false)

/-- `ResourceManager.is_safe`: Banker safety check, `all(finish)` at the end
of the scan. -/
def ResourceManager.is_safe (m : ResourceManager) : Bool :=
  (bankersFinal m).2.all id

/-- `ResourceManager.request_resources`: reject when the request exceeds the
process's need or the available pool (`np.any(request > ...)`), otherwise
tentatively apply, keep when `is_safe`, otherwise roll the arithmetic back. -/
def ResourceManager.request_resources (m : ResourceManager) (pid : Nat)
    (request : Vec) : Bool × ResourceManager :=
  match findProc m.processes pid with
  | none => (false, m)
  | some (i, p) =>
    if vecAnyGT request p.needed_resources || vecAnyGT request m.available_resources then
      (false, m)
    else
      let p1 : Process := { p with
        allocated_resources := vecAdd p.allocated_resources request
        needed_resources := vecSub p.needed_resources request }
      let m1 : ResourceManager := { m with
        available_resources := vecSub m.available_resources request
        processes := m.processes.set i p1 }
      if m1.is_safe then (true, m1)
      else
        let p2 : Process := { p1 with
          allocated_resources := vecSub p1.allocated_resources request
          needed_resources := vecAdd p1.needed_resources request }
        (false, { m1 with
          available_resources := vecAdd m1.available_resources request
          processes := m1.processes.set i p2 })

/-- `ResourceManager.release_resources`: reject when the release exceeds the
current allocation, otherwise return the resources unconditionally. -/
def ResourceManager.release_resources (m : ResourceManager) (pid : Nat)
    (resources : Vec) : Bool × ResourceManager :=
  match findProc m.processes pid with
  | none => (false, m)
  | some (i, p) =>
    if vecAnyGT resources p.allocated_resources then (false, m)
    else
      (true, { m with
        available_resources := vecAdd m.available_resources resources
        processes := m.processes.set i { p with
          allocated_resources := vecSub p.allocated_resources resources
          needed_resources := vecAdd p.needed_resources resources } })

/-! ## Resource-allocation graph and `detect_deadlock` (networkx model) -/

/-- A node of the resource-allocation graph: `f"P{pid}"` or `f"R{i}"`. -/
inductive GNode where
  | P : Nat → GNode
  | R : Nat → GNode
deriving Repr, DecidableEq

/-- An `nx.DiGraph`: node list and edge list, both in insertion order with
duplicates ignored (networkx keeps insertion order and deduplicates). -/
structure Graph where
  nodes : List GNode
  edges : List (GNode × GNode)
deriving Repr, DecidableEq

/-- `graph.add_node(v)`. -/
def Graph.addNode (g : Graph) (v : GNode) : Graph :=
  if v ∈ g.nodes then g else { g with nodes := g.nodes ++ [v] }

/-- `graph.add_edge(u, v)`: missing endpoints are added as nodes. -/
def Graph.addEdge (g : Graph) (u v : GNode) : Graph :=
  let g1 := (g.addNode u).addNode v
  if (u, v) ∈ g1.edges then g1 else { g1 with edges := g1.edges ++ [(u, v)] }

/-- Body of `for i, alloc in enumerate(p.allocated_resources)` inside
`detect_deadlock`: when `alloc > 0`, add node `R i` and edge `R i → P pid`. -/
def allocStep (pn : GNode) (g : Graph) (ia : Nat × Int) : Graph :=
  if 0 < ia.2 then ((g.addNode (GNode.R ia.1)).addEdge (GNode.R ia.1) pn) else g

/-- Body of `for i, need in enumerate(p.needed_resources)`: when `need > 0`
and `available[i] < need` and node `R i` already exists, add the request edge
`P pid → R i`. -/
def reqStep (avail : Vec) (pn : GNode) (g : Graph) (ia : Nat × Int) : Graph :=
  if 0 < ia.2 ∧ avail.getD ia.1 0 < ia.2 then
    (if GNode.R ia.1 ∈ g.nodes then g.addEdge pn (GNode.R ia.1) else g)
  else g

/-- The graph built by `ResourceManager.detect_deadlock`: first the process
nodes with their allocation edges, then the request edges. -/
def buildGraph (m : ResourceManager) : Graph :=
  let g1 := m.processes.foldl
    (fun g p => p.allocated_resources.enum.foldl (allocStep (GNode.P p.pid))
      (g.addNode (GNode.P p.pid))) ⟨[], []⟩
  m.processes.foldl
    (fun g p => p.needed_resources.enum.foldl
      (reqStep m.available_resources (GNode.P p.pid)) g) g1

/-- Successors of `u` in edge-insertion order. -/
def Graph.sucs (g : Graph) (u : GNode) : List GNode :=
  (g.edges.filter (fun e => decide (e.1 = u))).map Prod.snd

/-- The suffix of a node list starting at the first occurrence of `u`. -/
def dropUntil (u : GNode) : List GNode → List GNode
  | [] => []
  | x :: rest => if x = u then x :: rest else dropUntil u rest

/-- Consecutive pairs of a node path, as directed edges. -/
def pathEdges : List GNode → List (GNode × GNode)
  | [] => []
  | [_] => []
  | a :: b :: rest => (a, b) :: pathEdges (b :: rest)

/-- Depth-first search for a cycle, as `nx.find_cycle` performs it: follow
out-edges in insertion order keeping the current path; when the current node
already occurs on the path, return the edges of the closed loop.  The fuel
dominates the path length, which never exceeds the node count. -/
def dfsFindCycle (g : Graph) : Nat → GNode → List GNode → Option (List (GNode × GNode))
  | 0, _, _ => none
  | fuel + 1, u, path =>
    if u ∈ path then some (pathEdges (dropUntil u path ++ [u]))
    else (g.sucs u).findSome? (fun w => dfsFindCycle g fuel w (path ++ [u]))

/-- `nx.find_cycle(graph)`: search from every node in insertion order; `none`
models the `NetworkXNoCycle` exception. -/
def findCycle (g : Graph) : Option (List (GNode × GNode)) :=
  g.nodes.findSome? (fun v => dfsFindCycle g (g.nodes.length + 1) v [])

/-- The set `{u for u, v in cycle}` of edge sources of a found cycle. -/
def cycleSources (c : List (GNode × GNode)) : List GNode := c.map Prod.fst

/-- `ResourceManager.detect_deadlock` as a pure value: the indices (into
`processes`, in list order) of the processes whose node is an edge source of
the found cycle; `[]` when no cycle is found. -/
def detectSet (m : ResourceManager) : List Nat :=
  match findCycle (buildGraph m) with
  | none => []
  | some c =>
    ((m.processes.enum.filter
      (fun ip => GNode.P ip.2.pid ∈ cycleSources c)).map Prod.fst)

/-- `ResourceManager.detect_deadlock`: returns the deadlocked processes and
stores them in `self.deadlock_processes`. -/
def ResourceManager.detect_deadlock (m : ResourceManager) : List Nat × ResourceManager :=
  let dl := detectSet m
  (dl, { m with deadlock_processes := dl })

/-! ## Deadlock resolution on the ResourceManager -/

/-- Total allocation currently held by process `i` (the sort key
`np.sum(x.allocated_resources)` of `resolve_deadlock_by_termination`). -/
def allocTotal (m : ResourceManager) (i : Nat) : Int :=
  ((m.processes.get? i).map (fun p => p.allocated_resources.sum)).getD 0

/-- Insert into a descending-key list, after every element with a key that is
not smaller (so that Python's stable `sorted(..., reverse=True)` is matched). -/
def insertDesc (key : Nat → Int) (i : Nat) : List Nat → List Nat
  | [] => [i]
  | j :: rest => if key j < key i then i :: j :: rest else j :: insertDesc key i rest

/-- Stable descending sort by key, matching `sorted(xs, key=..., reverse=True)`. -/
def sortDesc (key : Nat → Int) (l : List Nat) : List Nat :=
  l.foldl (fun acc i => insertDesc key i acc) []

/-- Terminating process `i`: release its whole allocation back to the pool,
zero its allocation (`np.zeros_like`), reset its need to `max_resources`. -/
def terminateProc (m : ResourceManager) (i : Nat) : ResourceManager :=
  match m.processes.get? i with
  | none => m
  | some p =>
    { m with
      available_resources := vecAdd m.available_resources p.allocated_resources
      processes := m.processes.set i { p with
        allocated_resources := p.allocated_resources.map (fun _ => 0)
        needed_resources := p.max_resources } }

/-- The `for p in sorted(...)` loop of `resolve_deadlock_by_termination`:
terminate, re-run detection (which refreshes the cache), stop as soon as
detection reports no deadlock. -/
def termLoop : ResourceManager → List Nat → List Nat × ResourceManager
  | m, [] => ([], m)
  | m, i :: rest =>
    let m1 := terminateProc m i
    let det := m1.detect_deadlock
    if det.1 = [] then ([i], det.2)
    else
      let r := termLoop det.2 rest
      (i :: r.1, r.2)

/-- `ResourceManager.resolve_deadlock_by_termination`: refresh the deadlock
cache when it is empty, then terminate the cached deadlocked processes in
descending order of total held allocation until detection clears. -/
def ResourceManager.resolve_deadlock_by_termination (m : ResourceManager) :
    List Nat × ResourceManager :=
  let m0 := if m.deadlock_processes = [] then m.detect_deadlock.2 else m
  termLoop m0 (sortDesc (allocTotal m0) m0.deadlock_processes)

/-- `ResourceManager.resolve_deadlock_by_preemption`: detect, then strip every
deadlocked process that holds anything of its entire allocation (pool grows by
the allocation, need grows by the allocation, allocation zeroed). -/
def ResourceManager.resolve_deadlock_by_preemption (m : ResourceManager) :
    List Nat × ResourceManager :=
  let dl := detectSet m
  let m0 : ResourceManager := { m with deadlock_processes := dl }
  if dl = [] then ([], m0)
  else
    dl.foldl
      (fun acc i =>
        match acc.2.processes.get? i with
        | none => acc
        | some p =>
          if p.allocated_resources.any (fun a => decide (0 < a)) then
            (acc.1 ++ [i], { acc.2 with
              available_resources := vecAdd acc.2.available_resources p.allocated_resources
              processes := acc.2.processes.set i { p with
                needed_resources := vecAdd p.needed_resources p.allocated_resources
                allocated_resources := p.allocated_resources.map (fun _ => 0) } })
          else acc)
      (([] : List Nat), m0)

/-! ## Schedulers (scheduling.py) -/

/-- A process as the schedulers see it: pid, the scheduling counters, and the
resource vectors used by the Banker-gated scheduler. -/
structure SProc where
  pid : Nat
  remaining_time : Int
  execution_time : Int
  waiting_time : Int
  allocated_resources : Vec
  needed_resources : Vec
deriving Repr, DecidableEq

/-- One history record (`self.history.append({...})`).  `quantum` is only
written by the Round-Robin scheduler, `available` only by the Banker-gated
scheduler. -/
structure HistEntry where
  time : Nat
  running : Nat
  ready_pids : List Nat
  completed_pids : List Nat
  quantum : Option Nat
  available : Option Vec
deriving Repr, DecidableEq

/-- Common scheduler state (`Scheduler.__init__`).  Python aliases mutable
process objects from the queues; here `procs` owns the processes and the
queues hold indices into it.  `current_quantum` belongs to Round-Robin and
`available_resources` to the Banker-gated scheduler. -/
structure SchedState where
  procs : List SProc
  time : Nat
  running : Option Nat
  ready : List Nat
  completed : List Nat
  history : List HistEntry
  current_quantum : Nat
  available_resources : Vec
deriving Repr, DecidableEq

/-- `update_waiting_times`: bump `waiting_time` of everything in the ready
queue. -/
def updateWaiting (procs : List SProc) (ready : List Nat) : List SProc :=
  ready.foldl
    (fun ps i =>
      match ps.get? i with
      | some p => ps.set i { p with waiting_time := p.waiting_time + 1 }
      | none => ps) procs

/-- pids of the queued processes, for a history record. -/
def pidsOf (procs : List SProc) (idxs : List Nat) : List Nat :=
  idxs.filterMap (fun i => (procs.get? i).map (fun p => p.pid))

/-- The dispatch phase shared by `FCFSScheduler.step` and
`RoundRobinScheduler.step`: when idle, pop the head of the ready queue
(Round-Robin also resets its quantum counter, FCFS ignores it). -/
def queueDispatch (resetQuantum : Bool) (s : SchedState) : SchedState :=
  match s.running, s.ready with
  | none, i :: rest =>
    { s with running := some i, ready := rest
             current_quantum := if resetQuantum then 0 else s.current_quantum }
  | _, _ => s

/-- The `if self.running_process:` body of `FCFSScheduler.step`: run one time
unit, bump waiting times, append one history record, retire on completion. -/
def fcfsRun (s1 : SchedState) : SchedState :=
  match s1.running with
  | none => s1
  | some i =>
    match s1.procs.get? i with
    | none => s1
    | some p =>
      let p1 : SProc := { p with
        remaining_time := p.remaining_time - 1
        execution_time := p.execution_time + 1 }
      let procs2 := updateWaiting (s1.procs.set i p1) s1.ready
      let e : HistEntry :=
        ⟨s1.time, p.pid, pidsOf procs2 s1.ready, pidsOf procs2 s1.completed, none, none⟩
      let hist := s1.history ++ [e]
      if p1.remaining_time ≤ 0 then
        { s1 with procs := procs2, history := hist
                  completed := s1.completed ++ [i], running := none }
      else { s1 with procs := procs2, history := hist }

/-- `FCFSScheduler.step`; the trailing `super().step()` bumps the clock. -/
def fcfsStep (s : SchedState) : SchedState :=
  let s2 := fcfsRun (queueDispatch false s)
  { s2 with time := s2.time + 1 }

/-- The `if self.running_process:` body of `RoundRobinScheduler.step` with
time quantum `tq`: run one unit, record history with the quantum counter,
retire on completion, re-enqueue at the tail when the quantum expires. -/
def rrRun (tq : Nat) (s1 : SchedState) : SchedState :=
  match s1.running with
  | none => s1
  | some i =>
    match s1.procs.get? i with
    | none => s1
    | some p =>
      let p1 : SProc := { p with
        remaining_time := p.remaining_time - 1
        execution_time := p.execution_time + 1 }
      let cq := s1.current_quantum + 1
      let procs2 := updateWaiting (s1.procs.set i p1) s1.ready
      let e : HistEntry :=
        ⟨s1.time, p.pid, pidsOf procs2 s1.ready, pidsOf procs2 s1.completed, some cq, none⟩
      let hist := s1.history ++ [e]
      if p1.remaining_time ≤ 0 then
        { s1 with procs := procs2, history := hist, current_quantum := cq
                  completed := s1.completed ++ [i], running := none }
      else if tq ≤ cq then
        { s1 with procs := procs2, history := hist, current_quantum := cq
                  ready := s1.ready ++ [i], running := none }
      else { s1 with procs := procs2, history := hist, current_quantum := cq }

/-- `RoundRobinScheduler.step`. -/
def rrStep (tq : Nat) (s : SchedState) : SchedState :=
  let s2 := rrRun tq (queueDispatch true s)
  { s2 with time := s2.time + 1 }

/-- `BankersScheduler.is_safe(process)`: hypothetically grant process `i` its
whole outstanding need and check that every other queued process still fits in
the remaining pool. -/
def bankersSafe (procs : List SProc) (avail : Vec) (ready : List Nat) (i : Nat) : Bool :=
  match procs.get? i with
  | none => false
  | some p =>
    let work := vecSub avail p.needed_resources
    if work.any (fun x => decide (x < 0)) then false
    else (ready.filter (fun j => decide (¬ j = i))).all
      (fun j =>
        match procs.get? j with
        | none => true
        | some q => vecLE q.needed_resources work)

/-- The admission scan of `BankersScheduler.step`: position in the ready queue
of the first process whose need fits the pool and whose admission is safe. -/
def bankersPick (procs : List SProc) (avail : Vec) (ready : List Nat) : Option Nat :=
  ready.findIdx?
    (fun j =>
      (match procs.get? j with
       | none => false
       | some p => vecLE p.needed_resources avail) && bankersSafe procs avail ready j)

/-- The admission phase of `BankersScheduler.step`: when idle, admit the first
satisfiable-and-safe queued process and grant it its whole outstanding need. -/
def bankersDispatch (s : SchedState) : SchedState :=
  match s.running with
  | some _ => s
  | none =>
    match bankersPick s.procs s.available_resources s.ready with
    | none => s
    | some k =>
      match (s.ready.get? k).bind (fun i => (s.procs.get? i).map (fun p => (i, p))) with
      | none => s
      | some (i, p) =>
        { s with
          running := some i
          ready := s.ready.eraseIdx k
          available_resources := vecSub s.available_resources p.needed_resources
          procs := s.procs.set i { p with
            allocated_resources := vecAdd p.allocated_resources p.needed_resources
            needed_resources := p.needed_resources.map (fun _ => 0) } }

/-- The `if self.running_process:` body of `BankersScheduler.step`: run one
unit, record history with an available-pool snapshot, release the allocation
back to the pool on completion. -/
def bankersRun (s1 : SchedState) : SchedState :=
  match s1.running with
  | none => s1
  | some i =>
    match s1.procs.get? i with
    | none => s1
    | some p =>
      let p1 : SProc := { p with
        remaining_time := p.remaining_time - 1
        execution_time := p.execution_time + 1 }
      let procs2 := updateWaiting (s1.procs.set i p1) s1.ready
      let e : HistEntry :=
        ⟨s1.time, p.pid, pidsOf procs2 s1.ready, pidsOf procs2 s1.completed, none,
          some s1.available_resources⟩
      let hist := s1.history ++ [e]
      if p1.remaining_time ≤ 0 then
        { s1 with procs := procs2, history := hist
                  available_resources := vecAdd s1.available_resources p1.allocated_resources
                  completed := s1.completed ++ [i], running := none }
      else { s1 with procs := procs2, history := hist }

/-- `BankersScheduler.step`. -/
def bankersStep (s : SchedState) : SchedState :=
  let s2 := bankersRun (bankersDispatch s)
  { s2 with time := s2.time + 1 }

/-! ## DeadlockResolver.banker_resolution (deadlock_resolution.py)

`SystemState` is imported by main.py but its class is not among the source
files; it is reconstructed here from exactly the attributes
`deadlock_resolution.py` reads: `available_resources`, the per-process rows
`allocation_matrix[pid]` and `max_matrix[i]`, and the process list, whose
processes carry ids `0 .. n-1` equal to their position (as main.py builds
them), which reconciles the source's indexing of `allocation_matrix` both by
`process.id` and by loop position. -/

/-- The system state consumed by `DeadlockResolver`; row `i` of each matrix
belongs to the process with id `i`. -/
structure SystemState where
  available_resources : Vec
  allocation_matrix : List Vec
  max_matrix : List Vec
deriving Repr, DecidableEq

/-- `total[j] += row[j] for j in range(len(total))`. -/
def addRowTo (t row : Vec) : Vec :=
  t.enum.map (fun jx => jx.2 + row.getD jx.1 0)

/-- One pass of the safe-sequence scan of `banker_resolution` over the process
indices `idxs`: an unfinished process whose max-derived need fits into `work`
is marked, appended to the sequence, and its (already zeroed) allocation row
is folded into `work`. -/
def resPass (maxm allocm : List Vec) :
    List Nat → Vec → List Bool → List Nat → Bool → Vec × List Bool × List Nat × Bool
  | [], work, finish, seq, found => (work, finish, seq, found)
  | i :: rest, work, finish, seq, found =>
    if finish.getD i true then resPass maxm allocm rest work finish seq found
    else
      let need := (List.range work.length).map
        (fun j => (maxm.getD i []).getD j 0 - (allocm.getD i []).getD j 0)
      if vecLE need work then
        resPass maxm allocm rest
          (work.enum.map (fun jx => jx.2 + (allocm.getD i []).getD jx.1 0))
          (finish.set i true) (seq ++ [i]) true
      else resPass maxm allocm rest work finish seq found

/-- The `while True:` scan loop of `banker_resolution`; each productive pass
marks at least one process, so `n + 1` passes suffice. -/
def resLoop (maxm allocm : List Vec) (idxs : List Nat) :
    Nat → Vec → List Bool → List Nat → List Bool × List Nat
  | 0, _, finish, seq => (finish, seq)
  | fuel + 1, work, finish, seq =>
    match resPass maxm allocm idxs work finish seq false with
    | (w, f, sq, true) => resLoop maxm allocm idxs fuel w f sq
    | (_, f, sq, false) => (f, sq)

/-- `DeadlockResolver.banker_resolution`: rebuild the total pool from
available plus all allocations, reset every allocation row to zero and the
pool to the total, then greedily derive a completion order against max-derived
need; succeed with the safe sequence iff every process finishes. -/
def banker_resolution (s : SystemState) : (Bool × List Nat) × SystemState :=
  let n := s.allocation_matrix.length
  let total := s.allocation_matrix.foldl addRowTo s.available_resources
  let s1 : SystemState := { s with
    available_resources := total
    allocation_matrix := s.allocation_matrix.map
      (fun row => row.enum.map (fun jx => if jx.1 < total.length then 0 else jx.2)) }
  let r :=
    resLoop s.max_matrix s1.allocation_matrix (List.range n) (n + 1)
      s1.available_resources (List.replicate n false) []
  if r.1.all id then ((true, r.2), s1) else ((false, []), s1)

/-! ## Derived notions used by the statements -/

/-- A call against the ledger: `request_resources` or `release_resources`. -/
inductive Call where
  | req : Nat → Vec → Call
  | rel : Nat → Vec → Call
deriving Repr, DecidableEq

/-- The vector argument of a call. -/
def Call.vec : Call → Vec
  | .req _ v => v
  | .rel _ v => v

/-- Execute one call, keeping only the resulting ledger. -/
def applyCall (m : ResourceManager) : Call → ResourceManager
  | .req pid v => (m.request_resources pid v).2
  | .rel pid v => (m.release_resources pid v).2

/-- Execute a sequence of calls. -/
def runCalls (m : ResourceManager) (cs : List Call) : ResourceManager :=
  cs.foldl applyCall m

/-- Sum over all processes of `allocated_resources[j]`. -/
def sumAllocAt (m : ResourceManager) (j : Nat) : Int :=
  (m.processes.map (fun p => p.allocated_resources.getD j 0)).sum

/-- `available[j] + Σ allocated[j]`: the conserved quantity of resource `j`. -/
def consAt (m : ResourceManager) (j : Nat) : Int :=
  m.available_resources.getD j 0 + sumAllocAt m j

/-- Well-formed ledger for `n` resource types: the available vector and every
process's allocation and need vectors have length `n`. -/
def WF (n : Nat) (m : ResourceManager) : Prop :=
  m.available_resources.length = n ∧
  ∀ p ∈ m.processes,
    p.allocated_resources.length = n ∧ p.needed_resources.length = n

/-- `c` is a directed cycle of `g`: a nonempty edge list, consecutive edges
chained target-to-source, closing back on its first source, all edges in `g`. -/
def isCycleOf (g : Graph) (c : List (GNode × GNode)) : Prop :=
  c ≠ [] ∧ (∀ e ∈ c, e ∈ g.edges) ∧
  List.Chain' (fun e f : GNode × GNode => e.2 = f.1) c ∧
  (c.getLast?).map Prod.snd = (c.head?).map Prod.fst

/-- The graph has some directed cycle. -/
def Graph.hasCycle (g : Graph) : Prop := ∃ c, isCycleOf g c

/-- Number of `false` entries of a finish list: the loop variant of the
Banker scans. -/
def countFalse : List Bool → Nat
  | [] => 0
  | true :: rest => countFalse rest
  | false :: rest => 1 + countFalse rest

/-! ## Concrete fixtures used in witnesses and counterexamples -/

/-- A one-process ledger: pid 1 holds nothing and needs one unit of the single
resource, with one unit available. -/
def oneProcLedger : ResourceManager := ⟨[1], [⟨1, [1], [0], [1]⟩], []⟩

/-- The spec's concrete scenario: `available=[0,0]`, P1 holds R1 and needs R2,
P2 holds R2 and needs R1. -/
def cycle2Ledger : ResourceManager :=
  ⟨[0, 0], [⟨1, [1, 1], [1, 0], [0, 1]⟩, ⟨2, [1, 1], [0, 1], [1, 0]⟩], []⟩

/-- Two disjoint circular waits: P1 and P2 cycle on resources 0 and 1, P3 and
P4 cycle on resources 2 and 3, nothing available. -/
def twoCyclesLedger : ResourceManager :=
  ⟨[0, 0, 0, 0],
   [⟨1, [1, 0, 0, 0], [1, 0, 0, 0], [0, 1, 0, 0]⟩,
    ⟨2, [0, 1, 0, 0], [0, 1, 0, 0], [1, 0, 0, 0]⟩,
    ⟨3, [0, 0, 1, 0], [0, 0, 1, 0], [0, 0, 0, 1]⟩,
    ⟨4, [0, 0, 0, 1], [0, 0, 0, 1], [0, 0, 1, 0]⟩], []⟩

/-- A ledger where pid 1 needs a unit of resource 0 that is unavailable, but
nobody holds resource 0, so node `R 0` is never added to the graph. -/
def noAllocLedger : ResourceManager := ⟨[0], [⟨1, [1], [0], [1]⟩], []⟩

/-- A Banker-gated scheduler state whose only queued process needs more than
the pool offers, so no process can be admitted. -/
def idleSched : SchedState := ⟨[⟨1, 5, 0, 0, [0], [1]⟩], 0, none, [0], [], [], 0, [0]⟩

/-- A scheduler state with no processes at all: nothing can be dispatched. -/
def emptySched : SchedState := ⟨[], 0, none, [], [], [], 0, []⟩

/-- A two-process system state for `banker_resolution`: total resources
`[2, 1]`, within every max row. -/
def exSystem : SystemState := ⟨[1, 0], [[1, 0], [0, 1]], [[2, 1], [1, 1]]⟩

/-! ## Helper lemmas -/

theorem findProc_eq_none {ps : List Process} {pid : Nat} :
    findProc ps pid = none ↔ ∀ p ∈ ps, p.pid ≠ pid := by
  induction ps with
  | nil => simp [findProc]
  | cons p rest ih =>
    simp only [findProc, List.mem_cons]
    by_cases h : p.pid = pid
    · simp [h]
    · simp only [h, if_false]
      cases hfr : findProc rest pid with
      | none =>
        simp only [Option.map_none', eq_self_iff_true, true_iff]
        intro q hq
        rcases hq with rfl | hq
        · exact h
        · exact ih.mp hfr q hq
      | some ip =>
        simp only [Option.map_some']
        constructor
        · intro hc; cases hc
        · intro hall
          have hn : findProc rest pid = none :=
            ih.mpr (fun q hq => hall q (Or.inr hq))
          rw [hfr] at hn; cases hn

theorem findProc_some {ps : List Process} {pid : Nat} :
    ∀ {i : Nat} {p : Process}, findProc ps pid = some (i, p) →
      ps.get? i = some p ∧ p.pid = pid := by
  induction ps with
  | nil => intro i p h; simp [findProc] at h
  | cons q rest ih =>
    intro i p h
    by_cases hq : q.pid = pid
    · simp only [findProc, hq, if_true, Option.some.injEq, Prod.mk.injEq] at h
      obtain ⟨hi, hp⟩ := h
      subst hi; subst hp
      simpa using hq
    · simp only [findProc, hq, if_false] at h
      cases hfr : findProc rest pid with
      | none => rw [hfr] at h; cases h
      | some ip =>
        rw [hfr] at h
        obtain ⟨i0, p0⟩ := ip
        simp only [Option.map_some', Option.some.injEq, Prod.mk.injEq] at h
        obtain ⟨hi, hp⟩ := h
        subst hi; subst hp
        simpa using ih hfr

theorem vecSub_add_cancel :
    ∀ (a v : Vec), a.length ≤ v.length → vecAdd (vecSub a v) v = a := by
  intro a
  induction a with
  | nil => intro v _; rfl
  | cons x a ih =>
    intro v h
    cases v with
    | nil => simp at h
    | cons y v =>
      simp only [vecAdd, vecSub, List.zipWith] at *
      simp only [List.length_cons, Nat.add_le_add_iff_right] at h
      have := ih v h
      simp only [vecAdd, vecSub] at this
      simp [this]

theorem vecAdd_sub_cancel :
    ∀ (a v : Vec), a.length ≤ v.length → vecSub (vecAdd a v) v = a := by
  intro a
  induction a with
  | nil => intro v _; rfl
  | cons x a ih =>
    intro v h
    cases v with
    | nil => simp at h
    | cons y v =>
      simp only [vecAdd, vecSub, List.zipWith] at *
      simp only [List.length_cons, Nat.add_le_add_iff_right] at h
      have := ih v h
      simp only [vecAdd, vecSub] at this
      simp [this]

theorem list_set_self {α : Type _} :
    ∀ (l : List α) (i : Nat) (a : α), l.get? i = some a → l.set i a = l := by
  intro l
  induction l with
  | nil => intro i a h; cases h
  | cons x rest ih =>
    intro i a h
    cases i with
    | zero =>
      have hxa : x = a := Option.some.inj h
      simp [List.set, ← hxa]
    | succ n =>
      simp only [List.set]
      rw [ih n a h]


/-! ## Scheduler step lemmas -/

theorem queueDispatch_time (b : Bool) (s : SchedState) :
    (queueDispatch b s).time = s.time := by
  obtain ⟨procs, time, running, ready, completed, history, cq, avail⟩ := s
  unfold queueDispatch
  rcases running with _ | i <;> rcases ready with _ | ⟨j, rest⟩ <;> rfl

theorem queueDispatch_history (b : Bool) (s : SchedState) :
    (queueDispatch b s).history = s.history := by
  obtain ⟨procs, time, running, ready, completed, history, cq, avail⟩ := s
  unfold queueDispatch
  rcases running with _ | i <;> rcases ready with _ | ⟨j, rest⟩ <;> rfl

theorem fcfsRun_time (s : SchedState) : (fcfsRun s).time = s.time := by
  unfold fcfsRun
  rcases hr : s.running with _ | i
  · rfl
  · dsimp only
    rcases hp : s.procs.get? i with _ | p
    · rfl
    · dsimp only
      split <;> rfl

theorem fcfsRun_hist_len (s : SchedState) :
    (fcfsRun s).history.length = s.history.length ∨
      (fcfsRun s).history.length = s.history.length + 1 := by
  unfold fcfsRun
  rcases hr : s.running with _ | i
  · exact Or.inl rfl
  · dsimp only
    rcases hp : s.procs.get? i with _ | p
    · exact Or.inl rfl
    · dsimp only
      split <;> simp [List.length_append]

theorem rrRun_time (tq : Nat) (s : SchedState) : (rrRun tq s).time = s.time := by
  unfold rrRun
  rcases hr : s.running with _ | i
  · rfl
  · dsimp only
    rcases hp : s.procs.get? i with _ | p
    · rfl
    · dsimp only
      split
      · rfl
      · split <;> rfl

theorem rrRun_hist_len (tq : Nat) (s : SchedState) :
    (rrRun tq s).history.length = s.history.length ∨
      (rrRun tq s).history.length = s.history.length + 1 := by
  unfold rrRun
  rcases hr : s.running with _ | i
  · exact Or.inl rfl
  · dsimp only
    rcases hp : s.procs.get? i with _ | p
    · exact Or.inl rfl
    · dsimp only
      split
      · simp [List.length_append]
      · split <;> simp [List.length_append]

theorem bankersDispatch_time (s : SchedState) : (bankersDispatch s).time = s.time := by
  unfold bankersDispatch
  rcases hr : s.running with _ | i
  · dsimp only
    rcases hk : bankersPick s.procs s.available_resources s.ready with _ | k
    · rfl
    · dsimp only
      rcases hb : (s.ready.get? k).bind
        (fun i => (s.procs.get? i).map (fun p => (i, p))) with _ | ip
      · rfl
      · obtain ⟨i, p⟩ := ip
        rfl
  · rfl

theorem bankersDispatch_history (s : SchedState) :
    (bankersDispatch s).history = s.history := by
  unfold bankersDispatch
  rcases hr : s.running with _ | i
  · dsimp only
    rcases hk : bankersPick s.procs s.available_resources s.ready with _ | k
    · rfl
    · dsimp only
      rcases hb : (s.ready.get? k).bind
        (fun i => (s.procs.get? i).map (fun p => (i, p))) with _ | ip
      · rfl
      · obtain ⟨i, p⟩ := ip
        rfl
  · rfl

theorem bankersDispatch_idle (s : SchedState) (h1 : s.running = none)
    (h2 : bankersPick s.procs s.available_resources s.ready = none) :
    bankersDispatch s = s := by
  unfold bankersDispatch
  rw [h1, h2]

theorem bankersRun_time (s : SchedState) : (bankersRun s).time = s.time := by
  unfold bankersRun
  rcases hr : s.running with _ | i
  · rfl
  · dsimp only
    rcases hp : s.procs.get? i with _ | p
    · rfl
    · dsimp only
      split <;> rfl

theorem bankersRun_hist_len (s : SchedState) :
    (bankersRun s).history.length = s.history.length ∨
      (bankersRun s).history.length = s.history.length + 1 := by
  unfold bankersRun
  rcases hr : s.running with _ | i
  · exact Or.inl rfl
  · dsimp only
    rcases hp : s.procs.get? i with _ | p
    · exact Or.inl rfl
    · dsimp only
      split <;> simp [List.length_append]

theorem bankersRun_of_none (s : SchedState) (h : s.running = none) :
    bankersRun s = s := by
  unfold bankersRun
  rw [h]

/-! ## Claim theorems: C7, C8, C10 -/

/-- C8 counterexample: on the Banker-gated scheduler whose sole queued process
needs more than the pool offers, one `step()` advances the clock from 0 to 1
but appends no history record, so the history length does not equal the
elapsed time as the claim demands. -/
theorem scheduler_history_counterexample :
    (bankersStep idleSched).time = idleSched.time + 1 ∧
    (bankersStep idleSched).history.length ≠ (bankersStep idleSched).time := by
  decide

theorem fcfsRun_none (s1 : SchedState) (h : s1.running = none) : fcfsRun s1 = s1 := by
  unfold fcfsRun
  rw [h]

theorem fcfsRun_stuck (s1 : SchedState) (i : Nat) (h : s1.running = some i)
    (h2 : s1.procs.get? i = none) : fcfsRun s1 = s1 := by
  unfold fcfsRun
  rw [h]
  dsimp only
  rw [h2]

theorem fcfsRun_runs_len (s1 : SchedState) (i : Nat) (p : SProc)
    (h : s1.running = some i) (h2 : s1.procs.get? i = some p) :
    (fcfsRun s1).history.length = s1.history.length + 1 := by
  unfold fcfsRun
  rw [h]
  dsimp only
  rw [h2]
  dsimp only
  split <;> simp [List.length_append]

theorem rrRun_none (tq : Nat) (s1 : SchedState) (h : s1.running = none) :
    rrRun tq s1 = s1 := by
  unfold rrRun
  rw [h]

theorem rrRun_stuck (tq : Nat) (s1 : SchedState) (i : Nat) (h : s1.running = some i)
    (h2 : s1.procs.get? i = none) : rrRun tq s1 = s1 := by
  unfold rrRun
  rw [h]
  dsimp only
  rw [h2]

theorem rrRun_runs_len (tq : Nat) (s1 : SchedState) (i : Nat) (p : SProc)
    (h : s1.running = some i) (h2 : s1.procs.get? i = some p) :
    (rrRun tq s1).history.length = s1.history.length + 1 := by
  unfold rrRun
  rw [h]
  dsimp only
  rw [h2]
  dsimp only
  split
  · simp [List.length_append]
  · split <;> simp [List.length_append]

theorem bankersRun_stuck (s1 : SchedState) (i : Nat) (h : s1.running = some i)
    (h2 : s1.procs.get? i = none) : bankersRun s1 = s1 := by
  unfold bankersRun
  rw [h]
  dsimp only
  rw [h2]

theorem bankersRun_runs_len (s1 : SchedState) (i : Nat) (p : SProc)
    (h : s1.running = some i) (h2 : s1.procs.get? i = some p) :
    (bankersRun s1).history.length = s1.history.length + 1 := by
  unfold bankersRun
  rw [h]
  dsimp only
  rw [h2]
  dsimp only
  split <;> simp [List.length_append]

theorem fcfsStep_parts (s : SchedState) :
    (fcfsStep s).time = s.time + 1 ∧
      ((fcfsStep s).history.length = s.history.length ∨
        (fcfsStep s).history.length = s.history.length + 1) := by
  constructor
  · show (fcfsRun (queueDispatch false s)).time + 1 = s.time + 1
    rw [fcfsRun_time, queueDispatch_time]
  · have h := fcfsRun_hist_len (queueDispatch false s)
    rw [queueDispatch_history] at h
    exact h

theorem rrStep_parts (tq : Nat) (s : SchedState) :
    (rrStep tq s).time = s.time + 1 ∧
      ((rrStep tq s).history.length = s.history.length ∨
        (rrStep tq s).history.length = s.history.length + 1) := by
  constructor
  · show (rrRun tq (queueDispatch true s)).time + 1 = s.time + 1
    rw [rrRun_time, queueDispatch_time]
  · have h := rrRun_hist_len tq (queueDispatch true s)
    rw [queueDispatch_history] at h
    exact h

theorem bankersStep_parts (s : SchedState) :
    (bankersStep s).time = s.time + 1 ∧
      ((bankersStep s).history.length = s.history.length ∨
        (bankersStep s).history.length = s.history.length + 1) := by
  constructor
  · show (bankersRun (bankersDispatch s)).time + 1 = s.time + 1
    rw [bankersRun_time, bankersDispatch_time]
  · have h := bankersRun_hist_len (bankersDispatch s)
    rw [bankersDispatch_history] at h
    exact h

/-- Iterating any step function that bumps time by one and appends at most one
record keeps the history length at most its initial length plus the elapsed
time. -/
theorem schedIterate_bounds (f : SchedState → SchedState)
    (hf : ∀ s : SchedState, (f s).time = s.time + 1 ∧
      ((f s).history.length = s.history.length ∨
        (f s).history.length = s.history.length + 1)) :
    ∀ (n : Nat) (s : SchedState),
      (f^[n] s).time = s.time + n ∧
      (f^[n] s).history.length ≤ s.history.length + n := by
  intro n
  induction n with
  | zero =>
    intro s
    simp
  | succ n ih =>
    intro s
    rw [Function.iterate_succ_apply]
    obtain ⟨ht, hh⟩ := hf s
    obtain ⟨iht, ihh⟩ := ih (f s)
    constructor
    · rw [iht, ht]
      omega
    · rcases hh with hh | hh <;> omega

/-- C8 (amended): every `step()` of the FCFS, Round-Robin and Banker-gated
schedulers advances the time counter by exactly one and appends at most one
history record — exactly one on a tick where a process runs (the dispatch
phase leaves a running process) and none otherwise, so after any number of
steps the history has grown by at most the elapsed time; in particular the
Banker-gated scheduler, on a tick where no ready process is both
resource-satisfiable and admission-safe, runs no process, still advances time
by one, and records nothing for that idle tick. -/
theorem scheduler_step_spec (tq : Nat) (s : SchedState) :
    ((fcfsStep s).time = s.time + 1 ∧
      ((fcfsStep s).history.length = s.history.length ∨
        (fcfsStep s).history.length = s.history.length + 1)) ∧
    ((rrStep tq s).time = s.time + 1 ∧
      ((rrStep tq s).history.length = s.history.length ∨
        (rrStep tq s).history.length = s.history.length + 1)) ∧
    ((bankersStep s).time = s.time + 1 ∧
      ((bankersStep s).history.length = s.history.length ∨
        (bankersStep s).history.length = s.history.length + 1)) ∧
    (s.running = none →
      bankersPick s.procs s.available_resources s.ready = none →
      (bankersStep s).history = s.history ∧ (bankersStep s).running = none ∧
        (bankersStep s).time = s.time + 1) ∧
    ((fcfsStep s).history.length = s.history.length + 1 ↔
      ∃ i p, (queueDispatch false s).running = some i ∧
        (queueDispatch false s).procs.get? i = some p) ∧
    ((¬ ∃ i p, (queueDispatch false s).running = some i ∧
        (queueDispatch false s).procs.get? i = some p) →
      (fcfsStep s).history = s.history) ∧
    ((rrStep tq s).history.length = s.history.length + 1 ↔
      ∃ i p, (queueDispatch true s).running = some i ∧
        (queueDispatch true s).procs.get? i = some p) ∧
    ((¬ ∃ i p, (queueDispatch true s).running = some i ∧
        (queueDispatch true s).procs.get? i = some p) →
      (rrStep tq s).history = s.history) ∧
    ((bankersStep s).history.length = s.history.length + 1 ↔
      ∃ i p, (bankersDispatch s).running = some i ∧
        (bankersDispatch s).procs.get? i = some p) ∧
    ((¬ ∃ i p, (bankersDispatch s).running = some i ∧
        (bankersDispatch s).procs.get? i = some p) →
      (bankersStep s).history = s.history) ∧
    (∀ n : Nat, (fcfsStep^[n] s).time = s.time + n ∧
      (fcfsStep^[n] s).history.length ≤ s.history.length + n) ∧
    (∀ n : Nat, ((rrStep tq)^[n] s).time = s.time + n ∧
      ((rrStep tq)^[n] s).history.length ≤ s.history.length + n) ∧
    (∀ n : Nat, (bankersStep^[n] s).time = s.time + n ∧
      (bankersStep^[n] s).history.length ≤ s.history.length + n) := by
  refine ⟨fcfsStep_parts s, rrStep_parts tq s, bankersStep_parts s, ?_, ?_, ?_, ?_, ?_,
    ?_, ?_, ?_, ?_, ?_⟩
  · intro h1 h2
    have hd : bankersDispatch s = s := bankersDispatch_idle s h1 h2
    have hrun : bankersRun (bankersDispatch s) = s := by
      rw [hd]
      exact bankersRun_of_none s h1
    refine ⟨?_, ?_, ?_⟩
    · show (bankersRun (bankersDispatch s)).history = s.history
      rw [hrun]
    · show (bankersRun (bankersDispatch s)).running = none
      rw [hrun]
      exact h1
    · show (bankersRun (bankersDispatch s)).time + 1 = s.time + 1
      rw [hrun]
  · constructor
    · intro hlen
      rcases hr : (queueDispatch false s).running with _ | i
      · exfalso
        have hh : (fcfsStep s).history = s.history := by
          show (fcfsRun (queueDispatch false s)).history = s.history
          rw [fcfsRun_none _ hr, queueDispatch_history]
        rw [hh] at hlen
        omega
      · rcases hp : (queueDispatch false s).procs.get? i with _ | p
        · exfalso
          have hh : (fcfsStep s).history = s.history := by
            show (fcfsRun (queueDispatch false s)).history = s.history
            rw [fcfsRun_stuck _ i hr hp, queueDispatch_history]
          rw [hh] at hlen
          omega
        · exact ⟨i, p, rfl, hp⟩
    · rintro ⟨i, p, hr, hp⟩
      show (fcfsRun (queueDispatch false s)).history.length = s.history.length + 1
      rw [fcfsRun_runs_len _ i p hr hp, queueDispatch_history]
  · intro hne
    rcases hr : (queueDispatch false s).running with _ | i
    · show (fcfsRun (queueDispatch false s)).history = s.history
      rw [fcfsRun_none _ hr, queueDispatch_history]
    · rcases hp : (queueDispatch false s).procs.get? i with _ | p
      · show (fcfsRun (queueDispatch false s)).history = s.history
        rw [fcfsRun_stuck _ i hr hp, queueDispatch_history]
      · exact absurd ⟨i, p, hr, hp⟩ hne
  · constructor
    · intro hlen
      rcases hr : (queueDispatch true s).running with _ | i
      · exfalso
        have hh : (rrStep tq s).history = s.history := by
          show (rrRun tq (queueDispatch true s)).history = s.history
          rw [rrRun_none tq _ hr, queueDispatch_history]
        rw [hh] at hlen
        omega
      · rcases hp : (queueDispatch true s).procs.get? i with _ | p
        · exfalso
          have hh : (rrStep tq s).history = s.history := by
            show (rrRun tq (queueDispatch true s)).history = s.history
            rw [rrRun_stuck tq _ i hr hp, queueDispatch_history]
          rw [hh] at hlen
          omega
        · exact ⟨i, p, rfl, hp⟩
    · rintro ⟨i, p, hr, hp⟩
      show (rrRun tq (queueDispatch true s)).history.length = s.history.length + 1
      rw [rrRun_runs_len tq _ i p hr hp, queueDispatch_history]
  · intro hne
    rcases hr : (queueDispatch true s).running with _ | i
    · show (rrRun tq (queueDispatch true s)).history = s.history
      rw [rrRun_none tq _ hr, queueDispatch_history]
    · rcases hp : (queueDispatch true s).procs.get? i with _ | p
      · show (rrRun tq (queueDispatch true s)).history = s.history
        rw [rrRun_stuck tq _ i hr hp, queueDispatch_history]
      · exact absurd ⟨i, p, hr, hp⟩ hne
  · constructor
    · intro hlen
      rcases hr : (bankersDispatch s).running with _ | i
      · exfalso
        have hh : (bankersStep s).history = s.history := by
          show (bankersRun (bankersDispatch s)).history = s.history
          rw [bankersRun_of_none _ hr, bankersDispatch_history]
        rw [hh] at hlen
        omega
      · rcases hp : (bankersDispatch s).procs.get? i with _ | p
        · exfalso
          have hh : (bankersStep s).history = s.history := by
            show (bankersRun (bankersDispatch s)).history = s.history
            rw [bankersRun_stuck _ i hr hp, bankersDispatch_history]
          rw [hh] at hlen
          omega
        · exact ⟨i, p, rfl, hp⟩
    · rintro ⟨i, p, hr, hp⟩
      show (bankersRun (bankersDispatch s)).history.length = s.history.length + 1
      rw [bankersRun_runs_len _ i p hr hp, bankersDispatch_history]
  · intro hne
    rcases hr : (bankersDispatch s).running with _ | i
    · show (bankersRun (bankersDispatch s)).history = s.history
      rw [bankersRun_of_none _ hr, bankersDispatch_history]
    · rcases hp : (bankersDispatch s).procs.get? i with _ | p
      · show (bankersRun (bankersDispatch s)).history = s.history
        rw [bankersRun_stuck _ i hr hp, bankersDispatch_history]
      · exact absurd ⟨i, p, hr, hp⟩ hne
  · exact fun n => schedIterate_bounds fcfsStep fcfsStep_parts n s
  · exact fun n => schedIterate_bounds (rrStep tq) (rrStep_parts tq) n s
  · exact fun n => schedIterate_bounds bankersStep bankersStep_parts n s

/-- C8 witness: the amended step contract applied to concrete states — the
idle Banker-gated tick records nothing while time advances, an FCFS tick with
nothing to dispatch records nothing, and three iterated FCFS steps advance
time by three while the history grows by at most three. -/
theorem scheduler_step_spec_witness :
    (bankersStep idleSched).history = idleSched.history ∧
    (bankersStep idleSched).running = none ∧
    (bankersStep idleSched).time = idleSched.time + 1 ∧
    (fcfsStep emptySched).history = emptySched.history ∧
    (fcfsStep^[3] idleSched).time = idleSched.time + 3 ∧
    (fcfsStep^[3] idleSched).history.length ≤ idleSched.history.length + 3 := by
  have h1 := (scheduler_step_spec 2 idleSched).2.2.2.1 rfl (by decide)
  have h2 := (scheduler_step_spec 2 emptySched).2.2.2.2.2.1
    (fun hep => by
      obtain ⟨i, p, hri, _⟩ := hep
      exact Option.noConfusion hri)
  have h3 := (scheduler_step_spec 2 idleSched).2.2.2.2.2.2.2.2.2.2.1 3
  exact ⟨h1.1, h1.2.1, h1.2.2, h2, h3.1, h3.2⟩

/-- C7: on the ledger with `available=[0,0]`, P1 holding `[1,0]` needing
`[0,1]` and P2 holding `[0,1]` needing `[1,0]`, detection reports exactly P1
and P2 (positions 0 and 1, pids 1 and 2), and the preemption strategy returns
both processes, leaves `available=[1,1]`, zeroes both allocations and adds
each preempted amount back to the corresponding need. -/
theorem preemption_scenario_spec :
    detectSet cycle2Ledger = [0, 1] ∧
    (detectSet cycle2Ledger).map
        (fun i => ((cycle2Ledger.processes.get? i).map Process.pid).getD 0) = [1, 2] ∧
    cycle2Ledger.resolve_deadlock_by_preemption =
      ([0, 1],
        { available_resources := [1, 1]
          processes := [⟨1, [1, 1], [0, 0], [1, 1]⟩, ⟨2, [1, 1], [0, 0], [1, 1]⟩]
          deadlock_processes := [0, 1] }) := by
  decide

/-- C10: a call on a pid that matches no process — request or release, with
any vector — returns `False` and leaves the ledger untouched. -/
theorem unknown_pid_rejected (m : ResourceManager) (pid : Nat) (v : Vec)
    (h : ∀ p ∈ m.processes, p.pid ≠ pid) :
    m.request_resources pid v = (false, m) ∧
    m.release_resources pid v = (false, m) := by
  have hf : findProc m.processes pid = none := findProc_eq_none.mpr h
  exact ⟨by simp [ResourceManager.request_resources, hf],
         by simp [ResourceManager.release_resources, hf]⟩

/-- C10 witness: the unknown-pid contract applied to the one-process ledger
and pid 2. -/
theorem unknown_pid_rejected_witness :
    ResourceManager.request_resources oneProcLedger 2 [5] = (false, oneProcLedger) ∧
    ResourceManager.release_resources oneProcLedger 2 [5] = (false, oneProcLedger) :=
  unknown_pid_rejected oneProcLedger 2 [5] (by decide)


/-! ## Request / release arithmetic lemmas -/

theorem vecAdd_length (a b : Vec) : (vecAdd a b).length = min a.length b.length := by
  simp [vecAdd]

theorem vecSub_length (a b : Vec) : (vecSub a b).length = min a.length b.length := by
  simp [vecSub]

theorem getD_vecAdd :
    ∀ (a b : Vec), a.length = b.length → ∀ j, (vecAdd a b).getD j 0 = a.getD j 0 + b.getD j 0 := by
  intro a
  induction a with
  | nil =>
    intro b h j
    cases b with
    | nil => simp [vecAdd]
    | cons y b => simp at h
  | cons x a ih =>
    intro b h j
    cases b with
    | nil => simp at h
    | cons y b =>
      simp only [List.length_cons, Nat.add_right_cancel_iff] at h
      cases j with
      | zero => simp [vecAdd]
      | succ j =>
        have := ih b h j
        simpa [vecAdd] using this

theorem getD_vecSub :
    ∀ (a b : Vec), a.length = b.length → ∀ j, (vecSub a b).getD j 0 = a.getD j 0 - b.getD j 0 := by
  intro a
  induction a with
  | nil =>
    intro b h j
    cases b with
    | nil => simp [vecSub]
    | cons y b => simp at h
  | cons x a ih =>
    intro b h j
    cases b with
    | nil => simp at h
    | cons y b =>
      simp only [List.length_cons, Nat.add_right_cancel_iff] at h
      cases j with
      | zero => simp [vecSub]
      | succ j =>
        have := ih b h j
        simpa [vecSub] using this

theorem map_sum_set {α : Type _} (f : α → Int) :
    ∀ (l : List α) (i : Nat) (a b : α), l.get? i = some a →
      ((l.set i b).map f).sum = (l.map f).sum + (f b - f a) := by
  intro l
  induction l with
  | nil => intro i a b h; cases h
  | cons x rest ih =>
    intro i a b h
    cases i with
    | zero =>
      have hxa : x = a := Option.some.inj h
      subst hxa
      simp [List.set]
      ring
    | succ n =>
      have h2 : rest.get? n = some a := h
      simp only [List.set, List.map_cons, List.sum_cons, ih n a b h2]
      ring

/-- The rollback branch of `request_resources` restores the exact pre-call
ledger: the arithmetic `(x - v) + v` and `(x + v) - v` cancels and the double
`List.set` collapses onto the original process. -/
theorem request_rollback (m : ResourceManager) {pid : Nat} {v : Vec}
    {i : Nat} {p : Process}
    (hfind : findProc m.processes pid = some (i, p))
    (hla : m.available_resources.length = v.length)
    (hlp : p.allocated_resources.length = v.length)
    (hln : p.needed_resources.length = v.length)
    (hguard : (vecAnyGT v p.needed_resources || vecAnyGT v m.available_resources) = false)
    (hsafe : (ResourceManager.is_safe { m with
        available_resources := vecSub m.available_resources v
        processes := m.processes.set i { p with
          allocated_resources := vecAdd p.allocated_resources v
          needed_resources := vecSub p.needed_resources v } }) = false) :
    m.request_resources pid v = (false, m) := by
  have havail : vecAdd (vecSub m.available_resources v) v = m.available_resources :=
    vecSub_add_cancel _ v (le_of_eq hla)
  have halloc : vecSub (vecAdd p.allocated_resources v) v = p.allocated_resources :=
    vecAdd_sub_cancel _ v (le_of_eq hlp)
  have hneed : vecAdd (vecSub p.needed_resources v) v = p.needed_resources :=
    vecSub_add_cancel _ v (le_of_eq hln)
  have hset : m.processes.set i p = m.processes :=
    list_set_self _ _ _ (findProc_some hfind).1
  have hp2 : ({ p with
      allocated_resources := vecSub (vecAdd p.allocated_resources v) v
      needed_resources := vecAdd (vecSub p.needed_resources v) v } : Process) = p := by
    rw [halloc, hneed]
  unfold ResourceManager.request_resources
  rw [hfind]
  dsimp only
  rw [if_neg (by simp [hguard]), if_neg (by simp [hsafe])]
  rw [List.set_set, hp2, havail, hset]

/-! ## Claim theorems: C1, C2 -/

/-- C1: for every ledger and pid naming the process `p` at position `i` (with
call-vector length matching the ledger), `request_resources` returns `False`
with no mutation when the request exceeds the outstanding need or the
available pool componentwise (`np.any(request > ...)`); otherwise it builds
the tentative ledger (available decremented, allocation incremented, need
decremented), commits it with `True` when `is_safe` holds there, and returns
`False` with the ledger rolled back to its exact pre-call value otherwise. -/
theorem request_resources_spec (m : ResourceManager) (pid : Nat) (v : Vec)
    (i : Nat) (p : Process) (hfind : findProc m.processes pid = some (i, p))
    (hla : m.available_resources.length = v.length)
    (hlp : p.allocated_resources.length = v.length)
    (hln : p.needed_resources.length = v.length) :
    ((vecAnyGT v p.needed_resources || vecAnyGT v m.available_resources) = true →
      m.request_resources pid v = (false, m)) ∧
    ((vecAnyGT v p.needed_resources || vecAnyGT v m.available_resources) = false →
      (let t : ResourceManager :=
        { m with
          available_resources := vecSub m.available_resources v
          processes := m.processes.set i { p with
            allocated_resources := vecAdd p.allocated_resources v
            needed_resources := vecSub p.needed_resources v } }
      (t.is_safe = true → m.request_resources pid v = (true, t)) ∧
      (t.is_safe = false → m.request_resources pid v = (false, m)))) := by
  refine ⟨?_, ?_⟩
  · intro hguard
    unfold ResourceManager.request_resources
    rw [hfind]
    dsimp only
    rw [if_pos hguard]
  · intro hguard
    refine ⟨?_, ?_⟩
    · intro hsafe
      unfold ResourceManager.request_resources
      rw [hfind]
      dsimp only
      rw [if_neg (by simp [hguard]), if_pos hsafe]
    · intro hsafe
      exact request_rollback m hfind hla hlp hln hguard hsafe

/-- C1 witness: granting `[1]` to pid 1 on the one-process ledger passes the
guard, is safe, and commits the tentative ledger. -/
theorem request_resources_spec_witness :
    ResourceManager.request_resources oneProcLedger 1 [1] =
      (true, { available_resources := [0]
               processes := [⟨1, [1], [1], [0]⟩]
               deadlock_processes := [] }) := by
  have h := request_resources_spec oneProcLedger 1 [1] 0 ⟨1, [1], [0], [1]⟩
    rfl rfl rfl rfl
  exact (h.2 (by decide)).1 (by decide)

/-- C2: any failing call — a `request_resources` or `release_resources` call
returning `False` for any reason (unknown pid, excessive request or release,
or unsafe tentative state) — leaves the ledger exactly as it was, given
call-vector lengths matching the ledger. -/
theorem failed_calls_atomic (m : ResourceManager) (pid : Nat) (v : Vec)
    (hla : m.available_resources.length = v.length)
    (hwf : ∀ p ∈ m.processes,
      p.allocated_resources.length = v.length ∧ p.needed_resources.length = v.length) :
    (∀ m2 : ResourceManager, m.request_resources pid v = (false, m2) → m2 = m) ∧
    (∀ m2 : ResourceManager, m.release_resources pid v = (false, m2) → m2 = m) := by
  constructor
  · intro m2 hcall
    cases hfind : findProc m.processes pid with
    | none =>
      unfold ResourceManager.request_resources at hcall
      rw [hfind] at hcall
      dsimp only at hcall
      exact (Prod.mk.inj hcall.symm).2
    | some ip =>
      obtain ⟨i, p⟩ := ip
      obtain ⟨hget, _⟩ := findProc_some hfind
      obtain ⟨hlp, hln⟩ := hwf p (List.get?_mem hget)
      cases hguard : vecAnyGT v p.needed_resources || vecAnyGT v m.available_resources with
      | true =>
        unfold ResourceManager.request_resources at hcall
        rw [hfind] at hcall
        dsimp only at hcall
        rw [if_pos hguard] at hcall
        exact (Prod.mk.inj hcall.symm).2
      | false =>
        cases hsafe : (ResourceManager.is_safe { m with
            available_resources := vecSub m.available_resources v
            processes := m.processes.set i { p with
              allocated_resources := vecAdd p.allocated_resources v
              needed_resources := vecSub p.needed_resources v } }) with
        | true =>
          unfold ResourceManager.request_resources at hcall
          rw [hfind] at hcall
          dsimp only at hcall
          rw [if_neg (by simp [hguard]), if_pos hsafe] at hcall
          simp [Prod.mk.injEq] at hcall
        | false =>
          have hroll := request_rollback m hfind hla hlp hln hguard hsafe
          rw [hroll] at hcall
          exact (Prod.mk.inj hcall.symm).2
  · intro m2 hcall
    cases hfind : findProc m.processes pid with
    | none =>
      unfold ResourceManager.release_resources at hcall
      rw [hfind] at hcall
      dsimp only at hcall
      exact (Prod.mk.inj hcall.symm).2
    | some ip =>
      obtain ⟨i, p⟩ := ip
      cases hguard : vecAnyGT v p.allocated_resources with
      | true =>
        unfold ResourceManager.release_resources at hcall
        rw [hfind] at hcall
        dsimp only at hcall
        rw [if_pos hguard] at hcall
        exact (Prod.mk.inj hcall.symm).2
      | false =>
        unfold ResourceManager.release_resources at hcall
        rw [hfind] at hcall
        dsimp only at hcall
        rw [if_neg (by simp [hguard])] at hcall
        simp [Prod.mk.injEq] at hcall

/-- C2 witness: requesting `[2]` on the one-process ledger exceeds the need,
fails, and leaves the ledger byte-for-byte unchanged. -/
theorem failed_calls_atomic_witness :
    (ResourceManager.request_resources oneProcLedger 1 [2]).2 = oneProcLedger :=
  (failed_calls_atomic oneProcLedger 1 [2] rfl (by decide)).1
    (ResourceManager.request_resources oneProcLedger 1 [2]).2 (by decide)


/-! ## Conservation (C3) -/

/-- One call — granted, rolled back, or rejected — preserves the componentwise
quantity `available[j] + Σ allocated[j]` and well-formedness. -/
theorem applyCall_consAt (m : ResourceManager) (n : Nat) (c : Call)
    (hwf : WF n m) (hv : c.vec.length = n) :
    (∀ j, consAt (applyCall m c) j = consAt m j) ∧ WF n (applyCall m c) := by
  obtain ⟨hA, hP⟩ := hwf
  cases c with
  | req pid v =>
    have hvl : v.length = n := hv
    show (∀ j, consAt (m.request_resources pid v).2 j = consAt m j) ∧
      WF n (m.request_resources pid v).2
    cases hfind : findProc m.processes pid with
    | none =>
      have heq : m.request_resources pid v = (false, m) := by
        unfold ResourceManager.request_resources
        rw [hfind]
      rw [heq]
      exact ⟨fun j => rfl, ⟨hA, hP⟩⟩
    | some ip =>
      obtain ⟨i, p⟩ := ip
      obtain ⟨hget, _⟩ := findProc_some hfind
      obtain ⟨hlp, hln⟩ := hP p (List.get?_mem hget)
      have hla : m.available_resources.length = v.length := hA.trans hvl.symm
      have hlpv : p.allocated_resources.length = v.length := hlp.trans hvl.symm
      have hlnv : p.needed_resources.length = v.length := hln.trans hvl.symm
      cases hguard : vecAnyGT v p.needed_resources || vecAnyGT v m.available_resources with
      | true =>
        have heq : m.request_resources pid v = (false, m) := by
          unfold ResourceManager.request_resources
          rw [hfind]
          dsimp only
          rw [if_pos hguard]
        rw [heq]
        exact ⟨fun j => rfl, ⟨hA, hP⟩⟩
      | false =>
        cases hsafe : (ResourceManager.is_safe { m with
            available_resources := vecSub m.available_resources v
            processes := m.processes.set i { p with
              allocated_resources := vecAdd p.allocated_resources v
              needed_resources := vecSub p.needed_resources v } }) with
        | false =>
          have heq := request_rollback m hfind hla hlpv hlnv hguard hsafe
          rw [heq]
          exact ⟨fun j => rfl, ⟨hA, hP⟩⟩
        | true =>
          have heq : m.request_resources pid v = (true, { m with
              available_resources := vecSub m.available_resources v
              processes := m.processes.set i { p with
                allocated_resources := vecAdd p.allocated_resources v
                needed_resources := vecSub p.needed_resources v } }) := by
            unfold ResourceManager.request_resources
            rw [hfind]
            dsimp only
            rw [if_neg (by simp [hguard]), if_pos hsafe]
          rw [heq]
          constructor
          · intro j
            unfold consAt sumAllocAt
            dsimp only
            rw [map_sum_set (fun q : Process => q.allocated_resources.getD j 0)
              m.processes i p _ hget]
            dsimp only
            rw [getD_vecSub m.available_resources v hla j,
              getD_vecAdd p.allocated_resources v hlpv j]
            ring
          · constructor
            · dsimp only
              rw [vecSub_length, hA, hvl]
              exact Nat.min_self n
            · intro q hq
              rcases List.mem_or_eq_of_mem_set hq with hq2 | rfl
              · exact hP q hq2
              · constructor
                · dsimp only
                  rw [vecAdd_length, hlp, hvl]
                  exact Nat.min_self n
                · dsimp only
                  rw [vecSub_length, hln, hvl]
                  exact Nat.min_self n
  | rel pid v =>
    have hvl : v.length = n := hv
    show (∀ j, consAt (m.release_resources pid v).2 j = consAt m j) ∧
      WF n (m.release_resources pid v).2
    cases hfind : findProc m.processes pid with
    | none =>
      have heq : m.release_resources pid v = (false, m) := by
        unfold ResourceManager.release_resources
        rw [hfind]
      rw [heq]
      exact ⟨fun j => rfl, ⟨hA, hP⟩⟩
    | some ip =>
      obtain ⟨i, p⟩ := ip
      obtain ⟨hget, _⟩ := findProc_some hfind
      obtain ⟨hlp, hln⟩ := hP p (List.get?_mem hget)
      have hla : m.available_resources.length = v.length := hA.trans hvl.symm
      have hlpv : p.allocated_resources.length = v.length := hlp.trans hvl.symm
      cases hguard : vecAnyGT v p.allocated_resources with
      | true =>
        have heq : m.release_resources pid v = (false, m) := by
          unfold ResourceManager.release_resources
          rw [hfind]
          dsimp only
          rw [if_pos hguard]
        rw [heq]
        exact ⟨fun j => rfl, ⟨hA, hP⟩⟩
      | false =>
        have heq : m.release_resources pid v = (true, { m with
            available_resources := vecAdd m.available_resources v
            processes := m.processes.set i { p with
              allocated_resources := vecSub p.allocated_resources v
              needed_resources := vecAdd p.needed_resources v } }) := by
          unfold ResourceManager.release_resources
          rw [hfind]
          dsimp only
          rw [if_neg (by simp [hguard])]
        rw [heq]
        constructor
        · intro j
          unfold consAt sumAllocAt
          dsimp only
          rw [map_sum_set (fun q : Process => q.allocated_resources.getD j 0)
            m.processes i p _ hget]
          dsimp only
          rw [getD_vecAdd m.available_resources v hla j,
            getD_vecSub p.allocated_resources v hlpv j]
          ring
        · constructor
          · dsimp only
            rw [vecAdd_length, hA, hvl]
            exact Nat.min_self n
          · intro q hq
            rcases List.mem_or_eq_of_mem_set hq with hq2 | rfl
            · exact hP q hq2
            · constructor
              · dsimp only
                rw [vecSub_length, hlp, hvl]
                exact Nat.min_self n
              · dsimp only
                rw [vecAdd_length, hln, hvl]
                exact Nat.min_self n

/-- C3: over any finite sequence of request/release calls on a well-formed
ledger (call vectors of the ledger's width), the quantity
`available[j] + Σ allocated[j]` equals its initial value after every prefix
of the sequence, whatever each call returned. -/
theorem conservation_invariant (n : Nat) (calls : List Call) :
    (∀ c ∈ calls, c.vec.length = n) →
    ∀ m : ResourceManager, WF n m →
      ∀ k j, consAt (runCalls m (calls.take k)) j = consAt m j := by
  induction calls with
  | nil =>
    intro _ m _ k j
    simp [runCalls]
  | cons c rest ih =>
    intro hc m hwf k j
    cases k with
    | zero => simp [runCalls]
    | succ k =>
      have hcv : c.vec.length = n := hc c (by simp)
      have step := applyCall_consAt m n c hwf hcv
      have ihh := ih (fun d hd => hc d (by simp [hd])) (applyCall m c) step.2 k j
      calc consAt (runCalls m ((c :: rest).take (k + 1))) j
          = consAt (runCalls (applyCall m c) (rest.take k)) j := by
            simp [runCalls, List.take_succ_cons]
        _ = consAt (applyCall m c) j := ihh
        _ = consAt m j := step.1 j

/-- C3 witness: conservation applied to the two-process circular-wait ledger
after a release by pid 1 followed by a request by pid 2, at resource 0. -/
theorem conservation_invariant_witness :
    consAt (runCalls cycle2Ledger
      (List.take 2 [Call.rel 1 [1, 0], Call.req 2 [0, 1]])) 0 =
      consAt cycle2Ledger 0 :=
  conservation_invariant 2 [Call.rel 1 [1, 0], Call.req 2 [0, 1]]
    (by decide) cycle2Ledger (by unfold WF; exact ⟨by decide, by decide⟩) 2 0


/-! ## Banker scan lemmas (C4) -/

theorem bankersPass_found_true {ps : List Process} :
    ∀ {i : Nat} {work : Vec} {finish : List Bool},
      (bankersPass ps i work finish true).2.2 = true := by
  induction ps with
  | nil => intro i work finish; rfl
  | cons p rest ih =>
    intro i work finish
    unfold bankersPass
    by_cases hc : (!(finish.getD i true) && vecLE p.needed_resources work) = true
    · rw [if_pos hc]; exact ih
    · rw [if_neg hc]; exact ih

theorem bankersPass_false_eq {ps : List Process} :
    ∀ {i : Nat} {work : Vec} {finish : List Bool} {w : Vec} {f : List Bool},
      bankersPass ps i work finish false = (w, f, false) → w = work ∧ f = finish := by
  induction ps with
  | nil =>
    intro i work finish w f h
    obtain ⟨h1, h2⟩ := Prod.mk.inj h
    exact ⟨h1.symm, ((Prod.mk.inj h2).1).symm⟩
  | cons p rest ih =>
    intro i work finish w f h
    unfold bankersPass at h
    by_cases hc : (!(finish.getD i true) && vecLE p.needed_resources work) = true
    · rw [if_pos hc] at h
      have hft := @bankersPass_found_true rest
        (i + 1) (vecAdd work p.allocated_resources) (finish.set i true)
      rw [h] at hft
      cases hft
    · rw [if_neg hc] at h
      exact ih h

theorem bankersPass_none_found {ps : List Process} :
    ∀ {i : Nat} {work : Vec} {finish : List Bool} {w : Vec} {f : List Bool},
      bankersPass ps i work finish false = (w, f, false) →
      ∀ k p, ps.get? k = some p →
        (!(finish.getD (i + k) true) && vecLE p.needed_resources work) = false := by
  induction ps with
  | nil => intro i work finish w f _ k p hk; cases hk
  | cons q rest ih =>
    intro i work finish w f h k p hk
    unfold bankersPass at h
    by_cases hc : (!(finish.getD i true) && vecLE q.needed_resources work) = true
    · rw [if_pos hc] at h
      have hft := @bankersPass_found_true rest
        (i + 1) (vecAdd work q.allocated_resources) (finish.set i true)
      rw [h] at hft
      cases hft
    · rw [if_neg hc] at h
      cases k with
      | zero =>
        have hq : q = p := Option.some.inj hk
        subst hq
        simpa using Bool.eq_false_iff.mpr hc
      | succ k2 =>
        have hrec := ih h k2 p hk
        have hidx : i + (k2 + 1) = (i + 1) + k2 := by omega
        rw [hidx]
        exact hrec

theorem countFalse_set_true :
    ∀ (l : List Bool) (i : Nat), l.getD i true = false →
      countFalse (l.set i true) < countFalse l := by
  intro l
  induction l with
  | nil => intro i h; simp at h
  | cons x rest ih =>
    intro i h
    cases i with
    | zero =>
      have hx : x = false := h
      subst hx
      have hset0 : (false :: rest).set 0 true = true :: rest := rfl
      rw [hset0]
      simp only [countFalse]
      omega
    | succ n =>
      have h2 : rest.getD n true = false := h
      have ihn := ih n h2
      have hsetc : (x :: rest).set (n + 1) true = x :: rest.set n true := rfl
      rw [hsetc]
      cases x <;> simp only [countFalse] <;> omega

theorem countFalse_replicate : ∀ n : Nat, countFalse (List.replicate n false) = n := by
  intro n
  induction n with
  | zero => rfl
  | succ n ih =>
    rw [List.replicate_succ]
    simp only [countFalse, ih]
    omega

theorem bankersPass_count_le {ps : List Process} :
    ∀ (b : Bool) {i : Nat} {work : Vec} {finish : List Bool},
      countFalse (bankersPass ps i work finish b).2.1 ≤ countFalse finish := by
  induction ps with
  | nil => intro b i work finish; exact le_refl _
  | cons p rest ih =>
    intro b i work finish
    unfold bankersPass
    by_cases hc : (!(finish.getD i true) && vecLE p.needed_resources work) = true
    · rw [if_pos hc]
      have hval : finish.getD i true = false := by
        cases hgd : finish.getD i true
        · rfl
        · exfalso; rw [hgd] at hc; simp at hc
      have hlt := countFalse_set_true finish i hval
      exact le_trans (ih true) (le_of_lt hlt)
    · rw [if_neg hc]
      exact ih b

theorem bankersPass_count_lt {ps : List Process} :
    ∀ {i : Nat} {work : Vec} {finish : List Bool} {w : Vec} {f : List Bool},
      bankersPass ps i work finish false = (w, f, true) →
      countFalse f < countFalse finish := by
  induction ps with
  | nil => intro i work finish w f h; cases (Prod.mk.inj (Prod.mk.inj h).2).2
  | cons p rest ih =>
    intro i work finish w f h
    unfold bankersPass at h
    by_cases hc : (!(finish.getD i true) && vecLE p.needed_resources work) = true
    · rw [if_pos hc] at h
      have hval : finish.getD i true = false := by
        cases hgd : finish.getD i true
        · rfl
        · exfalso; rw [hgd] at hc; simp at hc
      have hle := @bankersPass_count_le rest true
        (i + 1) (vecAdd work p.allocated_resources) (finish.set i true)
      rw [h] at hle
      exact lt_of_le_of_lt hle (countFalse_set_true finish i hval)
    · rw [if_neg hc] at h
      exact ih h

theorem bankersLoop_fixpoint (ps : List Process) :
    ∀ (fuel : Nat) (work : Vec) (finish : List Bool), countFalse finish < fuel →
      bankersPass ps 0 (bankersLoop ps fuel work finish).1
          (bankersLoop ps fuel work finish).2 false =
        ((bankersLoop ps fuel work finish).1, (bankersLoop ps fuel work finish).2, false) := by
  intro fuel
  induction fuel with
  | zero => intro work finish h; omega
  | succ fuel ih =>
    intro work finish h
    rcases hp : bankersPass ps 0 work finish false with ⟨w, f, found⟩
    have hred : bankersLoop ps (fuel + 1) work finish =
        (match bankersPass ps 0 work finish false with
         | (w, f, true) => bankersLoop ps fuel w f
         | (w, f, false) => (w, f)) := by
      rfl
    cases found with
    | false =>
      obtain ⟨hw, hf⟩ := bankersPass_false_eq hp
      subst hw; subst hf
      rw [hred, hp]
      dsimp only
      exact hp
    | true =>
      have hlt := bankersPass_count_lt hp
      rw [hred, hp]
      dsimp only
      exact ih w f (by omega)

/-- C4: `is_safe` runs the Banker work/finish scan to a genuine fixpoint — at
the final `(work, finish)` state no unfinished process has its need within
`work` (a full scan finds no newly finishable process) — and returns `True`
exactly when every process ends finished; in particular it returns `True` on
an empty process list. -/
theorem is_safe_banker_scan (m : ResourceManager) :
    (∀ k p, m.processes.get? k = some p → (bankersFinal m).2.getD k true = false →
      vecLE p.needed_resources (bankersFinal m).1 = false) ∧
    (m.is_safe = true ↔ ∀ b ∈ (bankersFinal m).2, b = true) ∧
    (m.processes = [] → m.is_safe = true) := by
  refine ⟨?_, ?_, ?_⟩
  · intro k p hk hfin
    have hcount : countFalse (List.replicate m.processes.length false)
        < m.processes.length + 1 := by
      rw [countFalse_replicate]
      omega
    have hfix := bankersLoop_fixpoint m.processes (m.processes.length + 1)
      m.available_resources (List.replicate m.processes.length false) hcount
    have hbf : bankersFinal m = bankersLoop m.processes (m.processes.length + 1)
        m.available_resources (List.replicate m.processes.length false) := rfl
    rw [← hbf] at hfix
    have hcond := bankersPass_none_found hfix k p hk
    rw [Nat.zero_add] at hcond
    rw [hfin] at hcond
    simpa using hcond
  · simp [ResourceManager.is_safe, List.all_eq_true, id]
  · intro h
    simp [ResourceManager.is_safe, bankersFinal, h, bankersLoop, bankersPass]

/-- C4 witness: on the ledger whose single process needs more than is
available, the scan leaves it unfinished and its need does not fit the final
work vector; and the empty ledger is safe. -/
theorem is_safe_banker_scan_witness :
    vecLE (Process.needed_resources ⟨1, [1], [0], [1]⟩)
        (bankersFinal noAllocLedger).1 = false ∧
    ResourceManager.is_safe ⟨[], [], []⟩ = true :=
  ⟨(is_safe_banker_scan noAllocLedger).1 0 ⟨1, [1], [0], [1]⟩ (by decide) (by decide),
   (is_safe_banker_scan ⟨[], [], []⟩).2.2 rfl⟩


/-! ## List lemmas for the banker_resolution scan (C9) -/

theorem addRowTo_length (t row : Vec) : (addRowTo t row).length = t.length := by
  simp [addRowTo]

theorem foldl_addRowTo_length :
    ∀ (rows : List Vec) (t : Vec), (rows.foldl addRowTo t).length = t.length := by
  intro rows
  induction rows with
  | nil => intro t; rfl
  | cons r rest ih =>
    intro t
    simp only [List.foldl_cons]
    rw [ih, addRowTo_length]

theorem enum_map_self (w : Vec) (g : Nat × Int → Int)
    (hg : ∀ jx ∈ w.enum, g jx = jx.2) : w.enum.map g = w := by
  calc w.enum.map g = w.enum.map Prod.snd := List.map_congr_left hg
    _ = w := List.enum_map_snd w

theorem resetRowFrom :
    ∀ (row : Vec) (k L : Nat), k + row.length ≤ L →
      (List.enumFrom k row).map (fun jx => if jx.1 < L then (0 : Int) else jx.2) =
        List.replicate row.length 0 := by
  intro row
  induction row with
  | nil => intro k L _; rfl
  | cons x rest ih =>
    intro k L h
    simp only [List.enumFrom, List.map_cons, List.length_cons, List.replicate_succ]
    simp only [List.length_cons] at h
    rw [if_pos (show k < L by omega)]
    rw [ih (k + 1) L (by omega)]

theorem resetRow_eq_replicate (row : Vec) (L : Nat) (h : row.length ≤ L) :
    row.enum.map (fun jx => if jx.1 < L then (0 : Int) else jx.2) =
      List.replicate row.length 0 := by
  have := resetRowFrom row 0 L (by omega)
  simpa [List.enum] using this

theorem getD_replicate_zero : ∀ (L j : Nat), (List.replicate L (0 : Int)).getD j 0 = 0 := by
  intro L
  induction L with
  | zero => intro j; cases j <;> rfl
  | succ L ih =>
    intro j
    cases j with
    | zero => rfl
    | succ j => exact ih j

theorem rangeMap_getD : ∀ (l : Vec), (List.range l.length).map (fun j => l.getD j 0) = l := by
  intro l
  induction l with
  | nil => rfl
  | cons x rest ih =>
    simp only [List.length_cons]
    rw [List.range_succ_eq_map, List.map_cons, List.map_map]
    have hcomp : ∀ j ∈ List.range rest.length,
        ((fun j => (x :: rest).getD j 0) ∘ Nat.succ) j = rest.getD j 0 := fun j _ => rfl
    rw [List.map_congr_left hcomp, ih]
    rfl

theorem getD_set_ne {α : Type _} :
    ∀ (l : List α) (i j : Nat) (a d : α), i ≠ j → (l.set i a).getD j d = l.getD j d := by
  intro l
  induction l with
  | nil => intro i j a d _; rfl
  | cons x rest ih =>
    intro i j a d hij
    cases i with
    | zero =>
      cases j with
      | zero => exact absurd rfl hij
      | succ j => rfl
    | succ i =>
      cases j with
      | zero => rfl
      | succ j => exact ih i j a d (by omega)

theorem getD_set_self {α : Type _} :
    ∀ (l : List α) (i : Nat) (a d : α), i < l.length → (l.set i a).getD i d = a := by
  intro l
  induction l with
  | nil => intro i a d h; simp at h
  | cons x rest ih =>
    intro i a d h
    cases i with
    | zero => rfl
    | succ i => exact ih i a d (by simpa using h)

theorem all_id_of_getD :
    ∀ (l : List Bool), (∀ k, k < l.length → l.getD k true = true) → l.all id = true := by
  intro l
  induction l with
  | nil => intro _; rfl
  | cons x rest ih =>
    intro h
    have hx : x = true := h 0 (by simp)
    subst hx
    simp only [List.all_cons, id, Bool.true_and]
    exact ih (fun k hk => h (k + 1) (by simpa using hk))

theorem all_id_false_of_getD :
    ∀ (l : List Bool) (k : Nat), l.getD k true = false → l.all id = false := by
  intro l
  induction l with
  | nil => intro k h; cases h
  | cons x rest ih =>
    intro k h
    cases k with
    | zero =>
      have hx : x = false := h
      subst hx
      rfl
    | succ k =>
      have := ih k h
      simp only [List.all_cons, id, this, Bool.and_false]


theorem getD_replicate_lt {α : Type _} (a d : α) :
    ∀ (n j : Nat), j < n → (List.replicate n a).getD j d = a := by
  intro n
  induction n with
  | zero => intro j h; omega
  | succ n ih =>
    intro j h
    cases j with
    | zero => rfl
    | succ j => exact ih j (by omega)

theorem getD_of_get? {α : Type _} :
    ∀ (l : List α) (i : Nat) (x d : α), l.get? i = some x → l.getD i d = x := by
  intro l
  induction l with
  | nil => intro i x d h; cases h
  | cons y rest ih =>
    intro i x d h
    cases i with
    | zero => exact Option.some.inj h
    | succ i => exact ih i x d h

theorem foldl_set_length :
    ∀ (idxs : List Nat) (finish : List Bool),
      (idxs.foldl (fun f j => f.set j true) finish).length = finish.length := by
  intro idxs
  induction idxs with
  | nil => intro finish; rfl
  | cons j rest ih =>
    intro finish
    simp only [List.foldl_cons]
    rw [ih, List.length_set]

theorem foldl_set_true_getD :
    ∀ (idxs : List Nat) (finish : List Bool) (i : Nat), i < finish.length →
      (i ∈ idxs ∨ finish.getD i true = true) →
      (idxs.foldl (fun f j => f.set j true) finish).getD i true = true := by
  intro idxs
  induction idxs with
  | nil =>
    intro finish i _ h
    rcases h with h | h
    · cases h
    · exact h
  | cons j rest ih =>
    intro finish i hlen h
    simp only [List.foldl_cons]
    apply ih (finish.set j true) i (by rw [List.length_set]; exact hlen)
    by_cases hij : i = j
    · subst hij
      exact Or.inr (getD_set_self finish i true true hlen)
    · rcases h with h | h
      · rcases List.mem_cons.mp h with h2 | h2
        · exact absurd h2 hij
        · exact Or.inl h2
      · exact Or.inr (by rw [getD_set_ne finish j i true true (fun he => hij he.symm)]; exact h)

/-! ## banker_resolution scan lemmas (C9) -/

theorem resPass_skip_all (maxm allocm : List Vec) :
    ∀ (idxs : List Nat) (work : Vec) (finish : List Bool) (seq : List Nat) (found : Bool),
      (∀ i ∈ idxs, finish.getD i true = true) →
      resPass maxm allocm idxs work finish seq found = (work, finish, seq, found) := by
  intro idxs
  induction idxs with
  | nil => intro work finish seq found _; rfl
  | cons i rest ih =>
    intro work finish seq found h
    unfold resPass
    rw [if_pos (h i (List.mem_cons_self i rest))]
    exact ih work finish seq found (fun i2 h2 => h i2 (List.mem_cons_of_mem i h2))

theorem resPass_mark_all (maxm allocm : List Vec)
    (hz : ∀ i j, ((allocm.getD i []).getD j 0 : Int) = 0) :
    ∀ (idxs : List Nat) (work : Vec) (finish : List Bool) (seq : List Nat) (found : Bool),
      List.Nodup idxs →
      (∀ i ∈ idxs, finish.getD i true = false) →
      (∀ i ∈ idxs,
        vecLE ((List.range work.length).map (fun j => (maxm.getD i []).getD j 0)) work = true) →
      resPass maxm allocm idxs work finish seq found =
        (work, idxs.foldl (fun f j => f.set j true) finish, seq ++ idxs,
          found || !idxs.isEmpty) := by
  intro idxs
  induction idxs with
  | nil => intro work finish seq found _ _ _; simp [resPass]
  | cons i rest ih =>
    intro work finish seq found hnd hfin hcond
    unfold resPass
    rw [if_neg (by rw [hfin i (List.mem_cons_self i rest)]; exact Bool.false_ne_true)]
    have hneed : (List.range work.length).map
        (fun j => (maxm.getD i []).getD j 0 - (allocm.getD i []).getD j 0) =
        (List.range work.length).map (fun j => (maxm.getD i []).getD j 0) :=
      List.map_congr_left (fun j _ => by rw [hz i j, sub_zero])
    dsimp only
    rw [hneed]
    rw [if_pos (hcond i (List.mem_cons_self i rest))]
    have hwork : work.enum.map (fun jx => jx.2 + (allocm.getD i []).getD jx.1 0) = work :=
      enum_map_self work _ (fun jx _ => by rw [hz i jx.1, add_zero])
    rw [hwork]
    have hnd2 := List.nodup_cons.mp hnd
    have hrec := ih work (finish.set i true) (seq ++ [i]) true hnd2.2
      (fun i2 h2 => by
        rw [getD_set_ne finish i i2 true true (fun he => hnd2.1 (he ▸ h2))]
        exact hfin i2 (List.mem_cons_of_mem i h2))
      (fun i2 h2 => hcond i2 (List.mem_cons_of_mem i h2))
    rw [hrec]
    simp

theorem resPass_work_eq (maxm allocm : List Vec)
    (hz : ∀ i j, ((allocm.getD i []).getD j 0 : Int) = 0) :
    ∀ (idxs : List Nat) (work : Vec) (finish : List Bool) (seq : List Nat) (found : Bool),
      (resPass maxm allocm idxs work finish seq found).1 = work := by
  intro idxs
  induction idxs with
  | nil => intro work finish seq found; rfl
  | cons i rest ih =>
    intro work finish seq found
    unfold resPass
    by_cases hf : finish.getD i true = true
    · rw [if_pos hf]
      exact ih work finish seq found
    · rw [if_neg hf]
      dsimp only
      by_cases hc : vecLE ((List.range work.length).map
          (fun j => (maxm.getD i []).getD j 0 - (allocm.getD i []).getD j 0)) work = true
      · rw [if_pos hc]
        have hwork : work.enum.map (fun jx => jx.2 + (allocm.getD i []).getD jx.1 0) = work :=
          enum_map_self work _ (fun jx _ => by rw [hz i jx.1, add_zero])
        rw [hwork]
        exact ih work (finish.set i true) (seq ++ [i]) true
      · rw [if_neg hc]
        exact ih work finish seq found

theorem resPass_persist (maxm allocm : List Vec)
    (hz : ∀ i j, ((allocm.getD i []).getD j 0 : Int) = 0) (i0 : Nat) :
    ∀ (idxs : List Nat) (work : Vec) (finish : List Bool) (seq : List Nat) (found : Bool),
      vecLE ((List.range work.length).map (fun j => (maxm.getD i0 []).getD j 0)) work = false →
      finish.getD i0 true = false →
      (resPass maxm allocm idxs work finish seq found).2.1.getD i0 true = false := by
  intro idxs
  induction idxs with
  | nil => intro work finish seq found _ hf; exact hf
  | cons i rest ih =>
    intro work finish seq found hbad hf
    unfold resPass
    by_cases hfi : finish.getD i true = true
    · rw [if_pos hfi]
      exact ih work finish seq found hbad hf
    · rw [if_neg hfi]
      dsimp only
      by_cases hc : vecLE ((List.range work.length).map
          (fun j => (maxm.getD i []).getD j 0 - (allocm.getD i []).getD j 0)) work = true
      · rw [if_pos hc]
        have hneed : (List.range work.length).map
            (fun j => (maxm.getD i []).getD j 0 - (allocm.getD i []).getD j 0) =
            (List.range work.length).map (fun j => (maxm.getD i []).getD j 0) :=
          List.map_congr_left (fun j _ => by rw [hz i j, sub_zero])
        rw [hneed] at hc
        have hii0 : i ≠ i0 := by
          intro he
          subst he
          rw [hc] at hbad
          cases hbad
        have hwork : work.enum.map (fun jx => jx.2 + (allocm.getD i []).getD jx.1 0) = work :=
          enum_map_self work _ (fun jx _ => by rw [hz i jx.1, add_zero])
        rw [hwork]
        exact ih work (finish.set i true) (seq ++ [i]) true hbad
          (by rw [getD_set_ne finish i i0 true true hii0]; exact hf)
      · rw [if_neg hc]
        exact ih work finish seq found hbad hf

theorem resLoop_persist (maxm allocm : List Vec)
    (hz : ∀ i j, ((allocm.getD i []).getD j 0 : Int) = 0) (i0 : Nat) :
    ∀ (fuel : Nat) (idxs : List Nat) (work : Vec) (finish : List Bool) (seq : List Nat),
      vecLE ((List.range work.length).map (fun j => (maxm.getD i0 []).getD j 0)) work = false →
      finish.getD i0 true = false →
      (resLoop maxm allocm idxs fuel work finish seq).1.getD i0 true = false := by
  intro fuel
  induction fuel with
  | zero => intro idxs work finish seq _ hf; exact hf
  | succ fuel ih =>
    intro idxs work finish seq hbad hf
    rcases hp : resPass maxm allocm idxs work finish seq false with ⟨w, rest3⟩
    obtain ⟨f, sq, found⟩ := rest3
    have hw : w = work := by
      have := resPass_work_eq maxm allocm hz idxs work finish seq false
      rw [hp] at this
      exact this
    have hfp : f.getD i0 true = false := by
      have := resPass_persist maxm allocm hz i0 idxs work finish seq false hbad hf
      rw [hp] at this
      exact this
    have hred : resLoop maxm allocm idxs (fuel + 1) work finish seq =
        (match resPass maxm allocm idxs work finish seq false with
         | (w, f, sq, true) => resLoop maxm allocm idxs fuel w f sq
         | (_, f, sq, false) => (f, sq)) := rfl
    rw [hred, hp]
    cases found with
    | false => exact hfp
    | true =>
      dsimp only
      rw [hw]
      exact ih idxs work f sq hbad hfp


theorem getD_none_default {α : Type _} :
    ∀ (l : List α) (i : Nat) (d : α), l.length ≤ i → l.getD i d = d := by
  intro l
  induction l with
  | nil => intro i d _; cases i <;> rfl
  | cons x rest ih =>
    intro i d h
    cases i with
    | zero => simp at h
    | succ i => exact ih i d (by simpa using h)

theorem resLoop_computes (maxm allocm : List Vec)
    (hz : ∀ i j, ((allocm.getD i []).getD j 0 : Int) = 0) (n : Nat) (total : Vec)
    (hcondAll : ∀ i ∈ List.range n,
      vecLE ((List.range total.length).map (fun j => (maxm.getD i []).getD j 0)) total
        = true) :
    resLoop maxm allocm (List.range n) (n + 1) total (List.replicate n false) [] =
      ((List.range n).foldl (fun f j => f.set j true) (List.replicate n false),
        List.range n) := by
  have hfin0 : ∀ i ∈ List.range n, (List.replicate n false).getD i true = false :=
    fun i hi => getD_replicate_lt false true n i (List.mem_range.mp hi)
  have hpass1 := resPass_mark_all maxm allocm hz (List.range n) total
    (List.replicate n false) [] false (List.nodup_range _) hfin0 hcondAll
  cases n with
  | zero => rfl
  | succ k =>
    have hfound : (false || !(List.range (k + 1)).isEmpty) = true := by
      simp [List.range_succ]
    rw [hfound] at hpass1
    have hred1 : resLoop maxm allocm (List.range (k + 1)) (k + 1 + 1) total
        (List.replicate (k + 1) false) [] =
        (match resPass maxm allocm (List.range (k + 1)) total
            (List.replicate (k + 1) false) [] false with
         | (w, f, sq, true) => resLoop maxm allocm (List.range (k + 1)) (k + 1) w f sq
         | (_, f, sq, false) => (f, sq)) := rfl
    rw [hred1, hpass1]
    dsimp only
    have hFall : ∀ i ∈ List.range (k + 1),
        ((List.range (k + 1)).foldl (fun f j => f.set j true)
          (List.replicate (k + 1) false)).getD i true = true := by
      intro i hi
      exact foldl_set_true_getD (List.range (k + 1)) (List.replicate (k + 1) false) i
        (by rw [List.length_replicate]; exact List.mem_range.mp hi) (Or.inl hi)
    have hpass2 := resPass_skip_all maxm allocm (List.range (k + 1)) total
      ((List.range (k + 1)).foldl (fun f j => f.set j true) (List.replicate (k + 1) false))
      ([] ++ List.range (k + 1)) false hFall
    have hred2 : resLoop maxm allocm (List.range (k + 1)) (k + 1) total
        ((List.range (k + 1)).foldl (fun f j => f.set j true) (List.replicate (k + 1) false))
        ([] ++ List.range (k + 1)) =
        (match resPass maxm allocm (List.range (k + 1)) total
            ((List.range (k + 1)).foldl (fun f j => f.set j true)
              (List.replicate (k + 1) false)) ([] ++ List.range (k + 1)) false with
         | (w, f, sq, true) => resLoop maxm allocm (List.range (k + 1)) k w f sq
         | (_, f, sq, false) => (f, sq)) := rfl
    rw [hred2, hpass2]
    dsimp only
    rw [List.nil_append]


/-- C9: on a width-`L` system state, `banker_resolution` resets the pool to
`available + Σ allocations` (the reconstructed total) and every allocation row
to zero, then greedily admits processes against max-derived need; it succeeds
with the safe sequence listing every process (ids `0 .. n-1` in order) exactly
when no process's max row exceeds the total componentwise, and fails
otherwise. -/
theorem banker_resolution_spec (s : SystemState) (L : Nat)
    (hA : s.available_resources.length = L)
    (halloc : ∀ row ∈ s.allocation_matrix, row.length = L)
    (hmax : ∀ row ∈ s.max_matrix, row.length = L)
    (hnm : s.max_matrix.length = s.allocation_matrix.length) :
    ((∀ row ∈ s.max_matrix, vecLE row (s.allocation_matrix.foldl addRowTo s.available_resources) = true) →
      (banker_resolution s).1 = (true, List.range s.allocation_matrix.length)) ∧
    ((∃ row ∈ s.max_matrix, vecLE row (s.allocation_matrix.foldl addRowTo s.available_resources) = false) →
      (banker_resolution s).1.1 = false) ∧
    ((banker_resolution s).2.available_resources = s.allocation_matrix.foldl addRowTo s.available_resources ∧
      ∀ row ∈ (banker_resolution s).2.allocation_matrix, row = List.replicate L 0) := by
  have htl : (s.allocation_matrix.foldl addRowTo s.available_resources).length = L :=
    (foldl_addRowTo_length s.allocation_matrix s.available_resources).trans hA
  have hallz : ∀ row2 ∈ s.allocation_matrix.map
      (fun row => row.enum.map
        (fun jx => if jx.1 < (s.allocation_matrix.foldl addRowTo s.available_resources).length then 0 else jx.2)), row2 = List.replicate L 0 := by
    intro row2 hrow2
    obtain ⟨row, hrow, hmapeq⟩ := List.mem_map.mp hrow2
    rw [← hmapeq, resetRow_eq_replicate row _ (by rw [htl, halloc row hrow]),
      halloc row hrow]
  have hz : ∀ i j, (((s.allocation_matrix.map
      (fun row => row.enum.map
        (fun jx => if jx.1 < (s.allocation_matrix.foldl addRowTo s.available_resources).length then 0 else jx.2))).getD i []).getD j 0 : Int) = 0 := by
    intro i j
    cases hg : (s.allocation_matrix.map
      (fun row => row.enum.map
        (fun jx => if jx.1 < (s.allocation_matrix.foldl addRowTo s.available_resources).length then 0 else jx.2))).get? i with
    | none =>
      rw [getD_none_default _ i [] (List.get?_eq_none.mp hg)]
      rfl
    | some row2 =>
      rw [getD_of_get? _ i row2 [] hg, hallz row2 (List.get?_mem hg)]
      exact getD_replicate_zero L j
  refine ⟨?_, ?_, ?_⟩
  · intro hall
    have hcond : ∀ i ∈ List.range s.allocation_matrix.length,
        vecLE ((List.range (s.allocation_matrix.foldl addRowTo s.available_resources).length).map
          (fun j => (s.max_matrix.getD i []).getD j 0)) (s.allocation_matrix.foldl addRowTo s.available_resources) = true := by
      intro i hi
      have hi2 : i < s.max_matrix.length := by
        rw [hnm]; exact List.mem_range.mp hi
      cases hg : s.max_matrix.get? i with
      | none =>
        have := List.get?_eq_none.mp hg
        omega
      | some row =>
        have hrow : row ∈ s.max_matrix := List.get?_mem hg
        rw [getD_of_get? _ _ _ _ hg,
          show (s.allocation_matrix.foldl addRowTo s.available_resources).length = row.length from htl.trans (hmax row hrow).symm,
          rangeMap_getD row]
        exact hall row hrow
    have hloop := resLoop_computes s.max_matrix (s.allocation_matrix.map
      (fun row => row.enum.map
        (fun jx => if jx.1 < (s.allocation_matrix.foldl addRowTo s.available_resources).length then 0 else jx.2))) hz s.allocation_matrix.length (s.allocation_matrix.foldl addRowTo s.available_resources) hcond
    have hallid : ((List.range s.allocation_matrix.length).foldl (fun f j => f.set j true)
        (List.replicate s.allocation_matrix.length false)).all id = true := by
      apply all_id_of_getD
      intro k hk
      rw [foldl_set_length, List.length_replicate] at hk
      exact foldl_set_true_getD (List.range s.allocation_matrix.length) (List.replicate s.allocation_matrix.length false) k
        (by rw [List.length_replicate]; exact hk) (Or.inl (List.mem_range.mpr hk))
    show (banker_resolution s).1 = (true, List.range s.allocation_matrix.length)
    unfold banker_resolution
    dsimp only
    rw [hloop]
    dsimp only
    rw [if_pos hallid]
  · rintro ⟨row, hrow, hbadrow⟩
    obtain ⟨i0, hg⟩ := List.mem_iff_get?.mp hrow
    have hi0 : i0 < s.max_matrix.length := by
      by_contra hcon
      rw [List.get?_eq_none.mpr (by omega)] at hg
      cases hg
    have hbad : vecLE ((List.range (s.allocation_matrix.foldl addRowTo s.available_resources).length).map
        (fun j => (s.max_matrix.getD i0 []).getD j 0)) (s.allocation_matrix.foldl addRowTo s.available_resources) = false := by
      rw [getD_of_get? _ _ _ _ hg,
        show (s.allocation_matrix.foldl addRowTo s.available_resources).length = row.length from htl.trans (hmax row hrow).symm,
        rangeMap_getD row]
      exact hbadrow
    have hper := resLoop_persist s.max_matrix (s.allocation_matrix.map
      (fun row => row.enum.map
        (fun jx => if jx.1 < (s.allocation_matrix.foldl addRowTo s.available_resources).length then 0 else jx.2))) hz i0
      (s.allocation_matrix.length + 1) (List.range s.allocation_matrix.length) (s.allocation_matrix.foldl addRowTo s.available_resources) (List.replicate s.allocation_matrix.length false) [] hbad
      (getD_replicate_lt false true s.allocation_matrix.length i0 (by rw [← hnm]; exact hi0))
    have hallfalse : (resLoop s.max_matrix (s.allocation_matrix.map
      (fun row => row.enum.map
        (fun jx => if jx.1 < (s.allocation_matrix.foldl addRowTo s.available_resources).length then 0 else jx.2))) (List.range s.allocation_matrix.length) (s.allocation_matrix.length + 1)
        (s.allocation_matrix.foldl addRowTo s.available_resources) (List.replicate s.allocation_matrix.length false) []).1.all id = false :=
      all_id_false_of_getD _ i0 hper
    show (banker_resolution s).1.1 = false
    unfold banker_resolution
    dsimp only
    rw [if_neg (by rw [hallfalse]; exact Bool.false_ne_true)]
  · show (banker_resolution s).2.available_resources = s.allocation_matrix.foldl addRowTo s.available_resources ∧
      ∀ row ∈ (banker_resolution s).2.allocation_matrix, row = List.replicate L 0
    unfold banker_resolution
    dsimp only
    by_cases hc : ((resLoop s.max_matrix (s.allocation_matrix.map
      (fun row => row.enum.map
        (fun jx => if jx.1 < (s.allocation_matrix.foldl addRowTo s.available_resources).length then 0 else jx.2))) (List.range s.allocation_matrix.length) (s.allocation_matrix.length + 1)
        (s.allocation_matrix.foldl addRowTo s.available_resources) (List.replicate s.allocation_matrix.length false) []).1.all id) = true
    · rw [if_pos hc]
      exact ⟨rfl, hallz⟩
    · rw [if_neg hc]
      exact ⟨rfl, hallz⟩

/-- C9 witness: the success contract applied to the concrete two-process
system (total `[2, 1]`, both max rows within the total). -/
theorem banker_resolution_spec_witness :
    (banker_resolution exSystem).1 = (true, List.range 2) :=
  (banker_resolution_spec exSystem 2 rfl (by decide) (by decide) rfl).1 (by decide)


/-! ## Cache-invariance and sorting lemmas (C6) -/

theorem detectSet_cache (m : ResourceManager) (d : List Nat) :
    detectSet { m with deadlock_processes := d } = detectSet m := rfl

theorem terminateProc_cache (m : ResourceManager) (d : List Nat) (i : Nat) :
    terminateProc { m with deadlock_processes := d } i =
      { terminateProc m i with deadlock_processes := d } := by
  unfold terminateProc
  cases hg : m.processes.get? i with
  | none => rfl
  | some p => rfl

theorem foldl_terminate_cache :
    ∀ (l : List Nat) (m : ResourceManager) (d : List Nat),
      l.foldl terminateProc { m with deadlock_processes := d } =
        { l.foldl terminateProc m with deadlock_processes := d } := by
  intro l
  induction l with
  | nil => intro m d; rfl
  | cons i rest ih =>
    intro m d
    simp only [List.foldl_cons]
    rw [terminateProc_cache m d i, ih (terminateProc m i) d]

theorem insertDesc_perm (key : Nat → Int) (i : Nat) :
    ∀ l : List Nat, List.Perm (insertDesc key i l) (i :: l) := by
  intro l
  induction l with
  | nil => exact List.Perm.refl _
  | cons j rest ih =>
    unfold insertDesc
    by_cases hc : key j < key i
    · rw [if_pos hc]
    · rw [if_neg hc]
      exact (List.Perm.cons j ih).trans (List.Perm.swap i j rest)

theorem insertDesc_pairwise (key : Nat → Int) (i : Nat) :
    ∀ l : List Nat, List.Pairwise (fun a b => key b ≤ key a) l →
      List.Pairwise (fun a b => key b ≤ key a) (insertDesc key i l) := by
  intro l
  induction l with
  | nil =>
    intro _
    exact List.Pairwise.cons (fun b hb => absurd hb (List.not_mem_nil b)) List.Pairwise.nil
  | cons j rest ih =>
    intro hp
    obtain ⟨hj, hrest⟩ := List.pairwise_cons.mp hp
    unfold insertDesc
    by_cases hc : key j < key i
    · rw [if_pos hc]
      refine List.pairwise_cons.mpr ⟨?_, hp⟩
      intro b hb
      rcases List.mem_cons.mp hb with rfl | hb
      · exact le_of_lt hc
      · exact le_trans (hj b hb) (le_of_lt hc)
    · rw [if_neg hc]
      refine List.pairwise_cons.mpr ⟨?_, ih hrest⟩
      intro b hb
      have hb2 := (insertDesc_perm key i rest).mem_iff.mp hb
      rcases List.mem_cons.mp hb2 with rfl | hb2
      · exact le_of_not_lt hc
      · exact hj b hb2

theorem foldl_insertDesc_perm (key : Nat → Int) :
    ∀ (l acc : List Nat),
      List.Perm (l.foldl (fun acc i => insertDesc key i acc) acc) (acc ++ l) := by
  intro l
  induction l with
  | nil =>
    intro acc
    rw [List.append_nil]
    exact List.Perm.refl _
  | cons i rest ih =>
    intro acc
    simp only [List.foldl_cons]
    refine (ih (insertDesc key i acc)).trans ?_
    refine (List.Perm.append_right rest (insertDesc_perm key i acc)).trans ?_
    exact List.perm_middle.symm

theorem sortDesc_perm (key : Nat → Int) (l : List Nat) :
    List.Perm (sortDesc key l) l := by
  have h := foldl_insertDesc_perm key l []
  simpa [sortDesc] using h

theorem sortDesc_pairwise (key : Nat → Int) (l : List Nat) :
    List.Pairwise (fun a b => key b ≤ key a) (sortDesc key l) := by
  have hgen : ∀ (l2 acc : List Nat),
      List.Pairwise (fun a b => key b ≤ key a) acc →
      List.Pairwise (fun a b => key b ≤ key a)
        (l2.foldl (fun acc i => insertDesc key i acc) acc) := by
    intro l2
    induction l2 with
    | nil => intro acc h; exact h
    | cons i rest ih =>
      intro acc h
      simp only [List.foldl_cons]
      exact ih (insertDesc key i acc) (insertDesc_pairwise key i acc h)
  exact hgen l [] (List.Pairwise.nil)


/-- Joint loop invariants of `resolve_deadlock_by_termination`'s for-loop:
the terminated list is a prefix of the scheduled order, of bounded length;
the resulting resource state is the fold of single terminations; detection is
clear afterwards whenever the loop broke early, and was still reporting a
deadlock before every intermediate termination. -/
theorem termLoop_props :
    ∀ (idxs : List Nat) (m : ResourceManager),
      (termLoop m idxs).1 = idxs.take (termLoop m idxs).1.length ∧
      (termLoop m idxs).1.length ≤ idxs.length ∧
      (termLoop m idxs).2.available_resources =
        ((termLoop m idxs).1.foldl terminateProc m).available_resources ∧
      (termLoop m idxs).2.processes =
        ((termLoop m idxs).1.foldl terminateProc m).processes ∧
      ((termLoop m idxs).1.length < idxs.length → detectSet (termLoop m idxs).2 = []) ∧
      (∀ k, k + 1 < (termLoop m idxs).1.length →
        detectSet (((termLoop m idxs).1.take (k + 1)).foldl terminateProc m) ≠ []) ∧
      (idxs ≠ [] → (termLoop m idxs).1 ≠ []) := by
  intro idxs
  induction idxs with
  | nil =>
    intro m
    refine ⟨rfl, le_refl _, rfl, rfl, ?_, ?_, ?_⟩
    · intro h
      simp [termLoop] at h
    · intro k hk
      simp [termLoop] at hk
    · intro h
      exact absurd rfl h
  | cons i rest ih =>
    intro m
    have hred : termLoop m (i :: rest) =
        (if ((terminateProc m i).detect_deadlock).1 = [] then
          ([i], ((terminateProc m i).detect_deadlock).2)
        else
          (i :: (termLoop ((terminateProc m i).detect_deadlock).2 rest).1,
            (termLoop ((terminateProc m i).detect_deadlock).2 rest).2)) := rfl
    have hdet1 : ((terminateProc m i).detect_deadlock).1 = detectSet (terminateProc m i) :=
      rfl
    have hdet2 : ((terminateProc m i).detect_deadlock).2 =
        { terminateProc m i with
          deadlock_processes := detectSet (terminateProc m i) } := rfl
    by_cases hd : ((terminateProc m i).detect_deadlock).1 = []
    · rw [hred, if_pos hd]
      refine ⟨rfl, by simp, rfl, rfl, ?_, ?_, ?_⟩
      · intro _
        rw [hdet2, detectSet_cache]
        rw [hdet1] at hd
        exact hd
      · intro k hk
        simp at hk
      · intro _
        simp
    · rw [hred, if_neg hd]
      obtain ⟨ih1, ih2, ih3, ih4, ih5, ih6, ih7⟩ :=
        ih ((terminateProc m i).detect_deadlock).2
      have hfoldacc : ∀ l : List Nat,
          l.foldl terminateProc ((terminateProc m i).detect_deadlock).2 =
            { l.foldl terminateProc (terminateProc m i) with
              deadlock_processes := detectSet (terminateProc m i) } := by
        intro l
        rw [hdet2, foldl_terminate_cache]
      refine ⟨?_, ?_, ?_, ?_, ?_, ?_, ?_⟩
      · show i :: (termLoop ((terminateProc m i).detect_deadlock).2 rest).1 =
          (i :: rest).take
            (i :: (termLoop ((terminateProc m i).detect_deadlock).2 rest).1).length
        simp only [List.length_cons, List.take_succ_cons]
        rw [← ih1]
      · simp only [List.length_cons]
        exact Nat.succ_le_succ ih2
      · show (termLoop ((terminateProc m i).detect_deadlock).2 rest).2.available_resources =
          ((termLoop ((terminateProc m i).detect_deadlock).2 rest).1.foldl terminateProc
            (terminateProc m i)).available_resources
        rw [ih3, hfoldacc]
      · show (termLoop ((terminateProc m i).detect_deadlock).2 rest).2.processes =
          ((termLoop ((terminateProc m i).detect_deadlock).2 rest).1.foldl terminateProc
            (terminateProc m i)).processes
        rw [ih4, hfoldacc]
      · intro hlt
        simp only [List.length_cons] at hlt
        exact ih5 (Nat.lt_of_succ_lt_succ hlt)
      · intro k hk
        cases k with
        | zero =>
          show detectSet (((i :: (termLoop ((terminateProc m i).detect_deadlock).2
              rest).1).take 1).foldl terminateProc m) ≠ []
          rw [hdet1] at hd
          simpa using hd
        | succ k2 =>
          simp only [List.length_cons] at hk
          have hih := ih6 k2 (Nat.lt_of_succ_lt_succ hk)
          rw [hfoldacc, detectSet_cache] at hih
          show detectSet (((i :: (termLoop ((terminateProc m i).detect_deadlock).2
              rest).1).take (k2 + 1 + 1)).foldl terminateProc m) ≠ []
          simpa using hih
      · intro _
        simp


/-- C6 counterexample: on the ledger with two disjoint circular waits (P1/P2
on resources 0 and 1, P3/P4 on resources 2 and 3), detection is non-empty,
yet after `resolve_deadlock_by_termination` runs to completion detection still
reports a deadlock — the second cycle was never in the terminated set. -/
theorem termination_claim_counterexample :
    detectSet twoCyclesLedger ≠ [] ∧
    detectSet (twoCyclesLedger.resolve_deadlock_by_termination).2 ≠ [] := by
  decide

/-- C6 (amended): on a freshly detected non-empty deadlock set of size N,
`resolve_deadlock_by_termination` terminates processes following the stable
descending order of total allocated resources (a prefix of that sorted order,
which is a permutation of the deadlocked set with pairwise descending keys),
each termination returning the allocation to the pool, zeroing it and
resetting need to max (the final resources are the fold of single
terminations); it terminates at most N processes, stops as soon as detection
reports no deadlock (detection was non-empty before each non-final
termination), and whenever it stops before exhausting the deadlocked list,
detection afterwards reports no deadlock.  (Unlike the original claim,
detection may still report a deadlock when all N were terminated: disjoint
cycles beyond the first detected one survive.) -/
theorem resolve_termination_spec (m : ResourceManager)
    (hcache : m.deadlock_processes = []) (hdl : detectSet m ≠ []) :
    List.Perm (sortDesc (allocTotal m) (detectSet m)) (detectSet m) ∧
    List.Pairwise (fun a b => allocTotal m b ≤ allocTotal m a)
      (sortDesc (allocTotal m) (detectSet m)) ∧
    (m.resolve_deadlock_by_termination).1 =
      (sortDesc (allocTotal m) (detectSet m)).take
        (m.resolve_deadlock_by_termination).1.length ∧
    (m.resolve_deadlock_by_termination).1.length ≤ (detectSet m).length ∧
    (m.resolve_deadlock_by_termination).1 ≠ [] ∧
    (m.resolve_deadlock_by_termination).2.available_resources =
      ((m.resolve_deadlock_by_termination).1.foldl terminateProc m).available_resources ∧
    (m.resolve_deadlock_by_termination).2.processes =
      ((m.resolve_deadlock_by_termination).1.foldl terminateProc m).processes ∧
    ((m.resolve_deadlock_by_termination).1.length < (detectSet m).length →
      detectSet (m.resolve_deadlock_by_termination).2 = []) ∧
    (∀ k, k + 1 < (m.resolve_deadlock_by_termination).1.length →
      detectSet (((m.resolve_deadlock_by_termination).1.take (k + 1)).foldl
        terminateProc m) ≠ []) := by
  have hres : m.resolve_deadlock_by_termination =
      termLoop { m with deadlock_processes := detectSet m }
        (sortDesc (allocTotal m) (detectSet m)) := by
    unfold ResourceManager.resolve_deadlock_by_termination
    rw [if_pos hcache]
    rfl
  have hperm := sortDesc_perm (allocTotal m) (detectSet m)
  have hlen : (sortDesc (allocTotal m) (detectSet m)).length = (detectSet m).length :=
    hperm.length_eq
  have hSne : sortDesc (allocTotal m) (detectSet m) ≠ [] := by
    intro hnil
    rw [hnil] at hlen
    exact hdl (List.length_eq_zero.mp hlen.symm)
  obtain ⟨hp1, hp2, hp3, hp4, hp5, hp6, hp7⟩ :=
    termLoop_props (sortDesc (allocTotal m) (detectSet m))
      { m with deadlock_processes := detectSet m }
  have hfoldc : ∀ l : List Nat,
      l.foldl terminateProc { m with deadlock_processes := detectSet m } =
        { l.foldl terminateProc m with deadlock_processes := detectSet m } :=
    fun l => foldl_terminate_cache l m (detectSet m)
  refine ⟨hperm, sortDesc_pairwise (allocTotal m) (detectSet m), ?_, ?_, ?_, ?_, ?_, ?_, ?_⟩
  · rw [hres]
    exact hp1
  · rw [hres, ← hlen]
    exact hp2
  · rw [hres]
    exact hp7 hSne
  · rw [hres, hp3, hfoldc]
  · rw [hres, hp4, hfoldc]
  · rw [hres, ← hlen]
    exact hp5
  · intro k hk
    rw [hres] at hk ⊢
    have := hp6 k hk
    rw [hfoldc, detectSet_cache] at this
    exact this

/-- C6 witness: the amended termination contract applied to the two-cycle
ledger — at most N = 2 processes are terminated and the terminated list is
non-empty. -/
theorem resolve_termination_spec_witness :
    (twoCyclesLedger.resolve_deadlock_by_termination).1.length ≤
        (detectSet twoCyclesLedger).length ∧
      (twoCyclesLedger.resolve_deadlock_by_termination).1 ≠ [] :=
  ⟨(resolve_termination_spec twoCyclesLedger rfl (by decide)).2.2.2.1,
   (resolve_termination_spec twoCyclesLedger rfl (by decide)).2.2.2.2.1⟩


/-! ## Graph construction lemmas (C5) -/

theorem addNode_edges (g : Graph) (v : GNode) : (g.addNode v).edges = g.edges := by
  unfold Graph.addNode
  split <;> rfl

theorem addNode_nodes_mem (g : Graph) (v w : GNode) :
    w ∈ (g.addNode v).nodes ↔ w ∈ g.nodes ∨ w = v := by
  unfold Graph.addNode
  by_cases hv : v ∈ g.nodes
  · rw [if_pos hv]
    constructor
    · exact Or.inl
    · intro h
      rcases h with h | rfl
      · exact h
      · exact hv
  · rw [if_neg hv]
    simp

theorem addEdge_edges_mem (g : Graph) (u v : GNode) (e : GNode × GNode) :
    e ∈ (g.addEdge u v).edges ↔ e ∈ g.edges ∨ e = (u, v) := by
  unfold Graph.addEdge
  dsimp only
  have hg1 : ((g.addNode u).addNode v).edges = g.edges := by
    rw [addNode_edges, addNode_edges]
  by_cases he : (u, v) ∈ g.edges
  · rw [if_pos (show (u, v) ∈ ((g.addNode u).addNode v).edges by rw [hg1]; exact he), hg1]
    constructor
    · exact Or.inl
    · rintro (h | rfl)
      · exact h
      · exact he
  · rw [if_neg (show (u, v) ∉ ((g.addNode u).addNode v).edges by rw [hg1]; exact he)]
    show e ∈ ((g.addNode u).addNode v).edges ++ [(u, v)] ↔ _
    rw [List.mem_append, hg1]
    simp

theorem addEdge_nodes_mem (g : Graph) (u v w : GNode) :
    w ∈ (g.addEdge u v).nodes ↔ w ∈ g.nodes ∨ w = u ∨ w = v := by
  unfold Graph.addEdge
  dsimp only
  by_cases he : (u, v) ∈ ((g.addNode u).addNode v).edges
  · rw [if_pos he]
    rw [addNode_nodes_mem, addNode_nodes_mem]
    tauto
  · rw [if_neg he]
    show w ∈ ((g.addNode u).addNode v).nodes ↔ _
    rw [addNode_nodes_mem, addNode_nodes_mem]
    tauto

theorem allocStep_edges_mem (pn : GNode) (g : Graph) (ia : Nat × Int) (e : GNode × GNode) :
    e ∈ (allocStep pn g ia).edges ↔
      e ∈ g.edges ∨ (0 < ia.2 ∧ e = (GNode.R ia.1, pn)) := by
  unfold allocStep
  by_cases hp : 0 < ia.2
  · rw [if_pos hp, addEdge_edges_mem, addNode_edges]
    tauto
  · rw [if_neg hp]
    tauto

theorem allocStep_nodes_R (pid : Nat) (g : Graph) (ia : Nat × Int) (j : Nat) :
    GNode.R j ∈ (allocStep (GNode.P pid) g ia).nodes ↔
      GNode.R j ∈ g.nodes ∨ (0 < ia.2 ∧ j = ia.1) := by
  unfold allocStep
  by_cases hp : 0 < ia.2
  · rw [if_pos hp, addEdge_nodes_mem, addNode_nodes_mem]
    constructor
    · intro h
      rcases h with (h | h) | h | h
      · exact Or.inl h
      · exact Or.inr ⟨hp, GNode.R.inj h⟩
      · exact Or.inr ⟨hp, GNode.R.inj h⟩
      · cases h
    · intro h
      rcases h with h | ⟨_, rfl⟩
      · exact Or.inl (Or.inl h)
      · exact Or.inl (Or.inr rfl)
  · rw [if_neg hp]
    tauto

theorem allocFold_edges (pn : GNode) :
    ∀ (l : List (Nat × Int)) (g : Graph) (e : GNode × GNode),
      e ∈ (l.foldl (allocStep pn) g).edges ↔
        e ∈ g.edges ∨ ∃ ia ∈ l, 0 < ia.2 ∧ e = (GNode.R ia.1, pn) := by
  intro l
  induction l with
  | nil => intro g e; simp
  | cons ia rest ih =>
    intro g e
    simp only [List.foldl_cons]
    rw [ih, allocStep_edges_mem]
    simp only [List.mem_cons]
    constructor
    · rintro ((h | h) | ⟨ib, hib, hb1, hb2⟩)
      · exact Or.inl h
      · exact Or.inr ⟨ia, Or.inl rfl, h.1, h.2⟩
      · exact Or.inr ⟨ib, Or.inr hib, hb1, hb2⟩
    · rintro (h | ⟨ib, (rfl | hib), hb1, hb2⟩)
      · exact Or.inl (Or.inl h)
      · exact Or.inl (Or.inr ⟨hb1, hb2⟩)
      · exact Or.inr ⟨ib, hib, hb1, hb2⟩

theorem allocFold_nodes_R (pid : Nat) :
    ∀ (l : List (Nat × Int)) (g : Graph) (j : Nat),
      GNode.R j ∈ (l.foldl (allocStep (GNode.P pid)) g).nodes ↔
        GNode.R j ∈ g.nodes ∨ ∃ ia ∈ l, 0 < ia.2 ∧ j = ia.1 := by
  intro l
  induction l with
  | nil => intro g j; simp
  | cons ia rest ih =>
    intro g j
    simp only [List.foldl_cons]
    rw [ih, allocStep_nodes_R]
    simp only [List.mem_cons]
    constructor
    · rintro ((h | h) | ⟨ib, hib, hb1, hb2⟩)
      · exact Or.inl h
      · exact Or.inr ⟨ia, Or.inl rfl, h.1, h.2⟩
      · exact Or.inr ⟨ib, Or.inr hib, hb1, hb2⟩
    · rintro (h | ⟨ib, (rfl | hib), hb1, hb2⟩)
      · exact Or.inl (Or.inl h)
      · exact Or.inl (Or.inr ⟨hb1, hb2⟩)
      · exact Or.inr ⟨ib, hib, hb1, hb2⟩


theorem reqStep_nodes_R (avail : Vec) (pid : Nat) (g : Graph) (ia : Nat × Int) (j : Nat) :
    GNode.R j ∈ (reqStep avail (GNode.P pid) g ia).nodes ↔ GNode.R j ∈ g.nodes := by
  unfold reqStep
  by_cases hc : 0 < ia.2 ∧ avail.getD ia.1 0 < ia.2
  · rw [if_pos hc]
    by_cases hn : GNode.R ia.1 ∈ g.nodes
    · rw [if_pos hn, addEdge_nodes_mem]
      constructor
      · rintro (h | h | h)
        · exact h
        · cases h
        · exact h ▸ hn
      · exact Or.inl
    · rw [if_neg hn]
  · rw [if_neg hc]

theorem reqStep_edges_mem (avail : Vec) (pid : Nat) (g : Graph) (ia : Nat × Int)
    (e : GNode × GNode) :
    e ∈ (reqStep avail (GNode.P pid) g ia).edges ↔
      e ∈ g.edges ∨ (0 < ia.2 ∧ avail.getD ia.1 0 < ia.2 ∧ GNode.R ia.1 ∈ g.nodes ∧
        e = (GNode.P pid, GNode.R ia.1)) := by
  unfold reqStep
  by_cases hc : 0 < ia.2 ∧ avail.getD ia.1 0 < ia.2
  · rw [if_pos hc]
    by_cases hn : GNode.R ia.1 ∈ g.nodes
    · rw [if_pos hn, addEdge_edges_mem]
      constructor
      · rintro (h | rfl)
        · exact Or.inl h
        · exact Or.inr ⟨hc.1, hc.2, hn, rfl⟩
      · rintro (h | ⟨_, _, _, rfl⟩)
        · exact Or.inl h
        · exact Or.inr rfl
    · rw [if_neg hn]
      tauto
  · rw [if_neg hc]
    constructor
    · exact Or.inl
    · rintro (h | ⟨h1, h2, _, _⟩)
      · exact h
      · exact absurd ⟨h1, h2⟩ hc

theorem reqFold_nodes_R (avail : Vec) (pid : Nat) :
    ∀ (l : List (Nat × Int)) (g : Graph) (j : Nat),
      GNode.R j ∈ (l.foldl (reqStep avail (GNode.P pid)) g).nodes ↔ GNode.R j ∈ g.nodes := by
  intro l
  induction l with
  | nil => intro g j; exact Iff.rfl
  | cons ia rest ih =>
    intro g j
    simp only [List.foldl_cons]
    rw [ih, reqStep_nodes_R]

theorem reqFold_edges (avail : Vec) (pid : Nat) :
    ∀ (l : List (Nat × Int)) (g : Graph) (e : GNode × GNode),
      e ∈ (l.foldl (reqStep avail (GNode.P pid)) g).edges ↔
        e ∈ g.edges ∨ ∃ ia ∈ l, 0 < ia.2 ∧ avail.getD ia.1 0 < ia.2 ∧
          GNode.R ia.1 ∈ g.nodes ∧ e = (GNode.P pid, GNode.R ia.1) := by
  intro l
  induction l with
  | nil => intro g e; simp
  | cons ia rest ih =>
    intro g e
    simp only [List.foldl_cons]
    rw [ih]
    have hnodes : ∀ j, GNode.R j ∈ (reqStep avail (GNode.P pid) g ia).nodes ↔
        GNode.R j ∈ g.nodes := fun j => reqStep_nodes_R avail pid g ia j
    simp only [List.mem_cons]
    rw [reqStep_edges_mem]
    constructor
    · rintro ((h | h) | ⟨ib, hib, hb1, hb2, hb3, hb4⟩)
      · exact Or.inl h
      · exact Or.inr ⟨ia, Or.inl rfl, h.1, h.2.1, h.2.2.1, h.2.2.2⟩
      · exact Or.inr ⟨ib, Or.inr hib, hb1, hb2, (hnodes ib.1).mp hb3, hb4⟩
    · rintro (h | ⟨ib, (rfl | hib), hb1, hb2, hb3, hb4⟩)
      · exact Or.inl (Or.inl h)
      · exact Or.inl (Or.inr ⟨hb1, hb2, hb3, hb4⟩)
      · exact Or.inr ⟨ib, hib, hb1, hb2, (hnodes ib.1).mpr hb3, hb4⟩

theorem phase1_edges :
    ∀ (ps : List Process) (g : Graph) (e : GNode × GNode),
      e ∈ (ps.foldl (fun g p => p.allocated_resources.enum.foldl
          (allocStep (GNode.P p.pid)) (g.addNode (GNode.P p.pid))) g).edges ↔
        e ∈ g.edges ∨ ∃ p ∈ ps, ∃ ia ∈ p.allocated_resources.enum,
          0 < ia.2 ∧ e = (GNode.R ia.1, GNode.P p.pid) := by
  intro ps
  induction ps with
  | nil => intro g e; simp
  | cons p rest ih =>
    intro g e
    simp only [List.foldl_cons]
    rw [ih, allocFold_edges, addNode_edges]
    simp only [List.mem_cons]
    constructor
    · rintro ((h | ⟨ia, hia, h1, h2⟩) | ⟨q, hq, ia, hia, h1, h2⟩)
      · exact Or.inl h
      · exact Or.inr ⟨p, Or.inl rfl, ia, hia, h1, h2⟩
      · exact Or.inr ⟨q, Or.inr hq, ia, hia, h1, h2⟩
    · rintro (h | ⟨q, (rfl | hq), ia, hia, h1, h2⟩)
      · exact Or.inl (Or.inl h)
      · exact Or.inl (Or.inr ⟨ia, hia, h1, h2⟩)
      · exact Or.inr ⟨q, hq, ia, hia, h1, h2⟩

theorem phase1_nodes_R :
    ∀ (ps : List Process) (g : Graph) (j : Nat),
      GNode.R j ∈ (ps.foldl (fun g p => p.allocated_resources.enum.foldl
          (allocStep (GNode.P p.pid)) (g.addNode (GNode.P p.pid))) g).nodes ↔
        GNode.R j ∈ g.nodes ∨ ∃ p ∈ ps, ∃ ia ∈ p.allocated_resources.enum,
          0 < ia.2 ∧ j = ia.1 := by
  intro ps
  induction ps with
  | nil => intro g j; simp
  | cons p rest ih =>
    intro g j
    simp only [List.foldl_cons]
    rw [ih, allocFold_nodes_R]
    have hpn : GNode.R j ∈ (g.addNode (GNode.P p.pid)).nodes ↔ GNode.R j ∈ g.nodes := by
      rw [addNode_nodes_mem]
      constructor
      · rintro (h | h)
        · exact h
        · cases h
      · exact Or.inl
    rw [hpn]
    simp only [List.mem_cons]
    constructor
    · rintro ((h | ⟨ia, hia, h1, h2⟩) | ⟨q, hq, ia, hia, h1, h2⟩)
      · exact Or.inl h
      · exact Or.inr ⟨p, Or.inl rfl, ia, hia, h1, h2⟩
      · exact Or.inr ⟨q, Or.inr hq, ia, hia, h1, h2⟩
    · rintro (h | ⟨q, (rfl | hq), ia, hia, h1, h2⟩)
      · exact Or.inl (Or.inl h)
      · exact Or.inl (Or.inr ⟨ia, hia, h1, h2⟩)
      · exact Or.inr ⟨q, hq, ia, hia, h1, h2⟩

theorem phase2_nodes_R (avail : Vec) :
    ∀ (ps : List Process) (g : Graph) (j : Nat),
      GNode.R j ∈ (ps.foldl (fun g p => p.needed_resources.enum.foldl
          (reqStep avail (GNode.P p.pid)) g) g).nodes ↔ GNode.R j ∈ g.nodes := by
  intro ps
  induction ps with
  | nil => intro g j; exact Iff.rfl
  | cons p rest ih =>
    intro g j
    simp only [List.foldl_cons]
    rw [ih, reqFold_nodes_R]

theorem phase2_edges (avail : Vec) :
    ∀ (ps : List Process) (g : Graph) (e : GNode × GNode),
      e ∈ (ps.foldl (fun g p => p.needed_resources.enum.foldl
          (reqStep avail (GNode.P p.pid)) g) g).edges ↔
        e ∈ g.edges ∨ ∃ p ∈ ps, ∃ ia ∈ p.needed_resources.enum,
          0 < ia.2 ∧ avail.getD ia.1 0 < ia.2 ∧ GNode.R ia.1 ∈ g.nodes ∧
          e = (GNode.P p.pid, GNode.R ia.1) := by
  intro ps
  induction ps with
  | nil => intro g e; simp
  | cons p rest ih =>
    intro g e
    simp only [List.foldl_cons]
    rw [ih, reqFold_edges]
    have hnodes : ∀ j, GNode.R j ∈ (p.needed_resources.enum.foldl
        (reqStep avail (GNode.P p.pid)) g).nodes ↔ GNode.R j ∈ g.nodes :=
      fun j => reqFold_nodes_R avail p.pid p.needed_resources.enum g j
    simp only [List.mem_cons]
    constructor
    · rintro ((h | ⟨ia, hia, h1, h2, h3, h4⟩) | ⟨q, hq, ia, hia, h1, h2, h3, h4⟩)
      · exact Or.inl h
      · exact Or.inr ⟨p, Or.inl rfl, ia, hia, h1, h2, h3, h4⟩
      · exact Or.inr ⟨q, Or.inr hq, ia, hia, h1, h2, (hnodes ia.1).mp h3, h4⟩
    · rintro (h | ⟨q, (rfl | hq), ia, hia, h1, h2, h3, h4⟩)
      · exact Or.inl (Or.inl h)
      · exact Or.inl (Or.inr ⟨ia, hia, h1, h2, h3, h4⟩)
      · exact Or.inr ⟨q, hq, ia, hia, h1, h2, (hnodes ia.1).mpr h3, h4⟩


theorem getD_pos_iff (v : Vec) (j : Nat) :
    0 < v.getD j 0 ↔ ∃ x, v.get? j = some x ∧ 0 < x := by
  cases hg : v.get? j with
  | none =>
    rw [getD_none_default v j 0 (List.get?_eq_none.mp hg)]
    simp
  | some x =>
    rw [getD_of_get? v j x 0 hg]
    constructor
    · intro h
      exact ⟨x, rfl, h⟩
    · rintro ⟨y, hy, h⟩
      obtain rfl := Option.some.inj hy
      exact h

theorem getD_two_iff (v : Vec) (j : Nat) (a : Int) :
    (0 < v.getD j 0 ∧ a < v.getD j 0) ↔
      ∃ x, v.get? j = some x ∧ 0 < x ∧ a < x := by
  cases hg : v.get? j with
  | none =>
    rw [getD_none_default v j 0 (List.get?_eq_none.mp hg)]
    simp
  | some x =>
    rw [getD_of_get? v j x 0 hg]
    constructor
    · intro h
      exact ⟨x, rfl, h⟩
    · rintro ⟨y, hy, h⟩
      obtain rfl := Option.some.inj hy
      exact h

/-- The allocation edges of the detection graph: `R j → P pid` is present
exactly when some process with that pid holds a positive amount of resource
`j`. -/
theorem buildGraph_alloc_edge (m : ResourceManager) (j pid : Nat) :
    (GNode.R j, GNode.P pid) ∈ (buildGraph m).edges ↔
      ∃ p ∈ m.processes, p.pid = pid ∧ 0 < p.allocated_resources.getD j 0 := by
  unfold buildGraph
  dsimp only
  rw [phase2_edges, phase1_edges]
  constructor
  · rintro ((h | ⟨p, hp, ia, hia, h1, h2⟩) | ⟨p, hp, ia, hia, h1, h2, h3, h4⟩)
    · cases h
    · obtain ⟨hj, hpid⟩ := Prod.mk.inj h2
      refine ⟨p, hp, (GNode.P.inj hpid).symm, ?_⟩
      refine (getD_pos_iff _ _).mpr ⟨ia.2, ?_, h1⟩
      rw [GNode.R.inj hj]
      exact List.mem_enum_iff_get?.mp hia
    · obtain ⟨hbad, _⟩ := Prod.mk.inj h4
      cases hbad
  · rintro ⟨p, hp, hpid, hpos⟩
    obtain ⟨x, hg, hx⟩ := (getD_pos_iff _ _).mp hpos
    refine Or.inl (Or.inr ⟨p, hp, (j, x), List.mem_enum_iff_get?.mpr hg, hx, ?_⟩)
    rw [hpid]

/-- The request edges of the detection graph: `P pid → R j` is present exactly
when some process with that pid has positive unmet need on resource `j`
(availability strictly below the need), and additionally some process holds a
positive amount of resource `j` (otherwise node `R j` was never created, and
the source omits the edge). -/
theorem buildGraph_req_edge (m : ResourceManager) (pid j : Nat) :
    (GNode.P pid, GNode.R j) ∈ (buildGraph m).edges ↔
      ((∃ p ∈ m.processes, p.pid = pid ∧ 0 < p.needed_resources.getD j 0 ∧
          m.available_resources.getD j 0 < p.needed_resources.getD j 0) ∧
        ∃ q ∈ m.processes, 0 < q.allocated_resources.getD j 0) := by
  unfold buildGraph
  dsimp only
  rw [phase2_edges, phase1_edges]
  constructor
  · rintro ((h | ⟨p, hp, ia, hia, h1, h2⟩) | ⟨p, hp, ia, hia, h1, h2, h3, h4⟩)
    · cases h
    · obtain ⟨hbad, _⟩ := Prod.mk.inj h2
      cases hbad
    · obtain ⟨hpid, hj⟩ := Prod.mk.inj h4
      have hj2 : ia.1 = j := GNode.R.inj hj.symm
      constructor
      · have hpp : p.pid = pid := (GNode.P.inj hpid).symm
        have hget : p.needed_resources.get? j = some ia.2 := by
          rw [← hj2]
          exact List.mem_enum_iff_get?.mp hia
        have havail : m.available_resources.getD j 0 < ia.2 := by
          rw [← hj2]
          exact h2
        have hboth := (getD_two_iff p.needed_resources j
          (m.available_resources.getD j 0)).mpr ⟨ia.2, hget, h1, havail⟩
        exact ⟨p, hp, hpp, hboth.1, hboth.2⟩
      · rw [phase1_nodes_R] at h3
        rcases h3 with h3 | ⟨q, hq, ib, hib, hb1, hb2⟩
        · cases h3
        · refine ⟨q, hq, (getD_pos_iff _ _).mpr ⟨ib.2, ?_, hb1⟩⟩
          rw [hj2] at hb2
          rw [hb2]
          exact List.mem_enum_iff_get?.mp hib
  · rintro ⟨⟨p, hp, hpid, hneed⟩, q, hq, halloc⟩
    obtain ⟨x, hg, hx1, hx2⟩ := (getD_two_iff _ _ _).mp ⟨hneed.1, hneed.2⟩
    obtain ⟨y, hgy, hy⟩ := (getD_pos_iff _ _).mp halloc
    refine Or.inr ⟨p, hp, (j, x), List.mem_enum_iff_get?.mpr hg, hx1, hx2, ?_, ?_⟩
    · rw [phase1_nodes_R]
      exact Or.inr ⟨q, hq, (j, y), List.mem_enum_iff_get?.mpr hgy, hy, rfl⟩
    · rw [hpid]


/-! ## DFS cycle soundness (C5) -/

theorem pathEdges_cons_subset (a : GNode) (t : List GNode) (e : GNode × GNode)
    (he : e ∈ pathEdges t) : e ∈ pathEdges (a :: t) := by
  cases t with
  | nil => cases he
  | cons b t2 => exact List.mem_cons_of_mem _ he

theorem pathEdges_suffix :
    ∀ (l1 l2 : List GNode) (e : GNode × GNode), e ∈ pathEdges l2 → e ∈ pathEdges (l1 ++ l2) := by
  intro l1
  induction l1 with
  | nil => intro l2 e h; simpa using h
  | cons a rest ih =>
    intro l2 e h
    exact pathEdges_cons_subset a (rest ++ l2) e (ih l2 e h)

theorem pathEdges_chain :
    ∀ l : List GNode, List.Chain' (fun e f : GNode × GNode => e.2 = f.1) (pathEdges l) := by
  intro l
  induction l with
  | nil => simp [pathEdges]
  | cons a t ih =>
    cases t with
    | nil => simp [pathEdges]
    | cons b t2 =>
      cases t2 with
      | nil => simp [pathEdges]
      | cons c t3 => exact List.Chain'.cons rfl ih

theorem pathEdges_ne_nil (a b : GNode) (t : List GNode) : pathEdges (a :: b :: t) ≠ [] := by
  intro h
  exact absurd h (List.cons_ne_nil _ _)

theorem getLast?_cons_of_ne_nil {α : Type _} (x : α) :
    ∀ (l : List α), l ≠ [] → (x :: l).getLast? = l.getLast? := by
  intro l h
  cases l with
  | nil => exact absurd rfl h
  | cons y t => exact List.getLast?_cons_cons

theorem pathEdges_last :
    ∀ (l : List GNode) (u : GNode), l ≠ [] →
      ((pathEdges (l ++ [u])).getLast?).map Prod.snd = some u := by
  intro l
  induction l with
  | nil => intro u h; exact absurd rfl h
  | cons a t ih =>
    intro u _
    cases t with
    | nil => rfl
    | cons b t2 =>
      have hne : pathEdges ((b :: t2) ++ [u]) ≠ [] := by
        rw [List.cons_append]
        cases t2 with
        | nil => exact pathEdges_ne_nil b u []
        | cons c t3 => exact pathEdges_ne_nil b c (t3 ++ [u])
      have hstep : pathEdges ((a :: b :: t2) ++ [u]) =
          (a, b) :: pathEdges ((b :: t2) ++ [u]) := rfl
      rw [hstep, getLast?_cons_of_ne_nil _ _ hne]
      exact ih u (List.cons_ne_nil b t2)

theorem pathEdges_append_one :
    ∀ (l : List GNode) (w : GNode) (e : GNode × GNode), l ≠ [] →
      e ∈ pathEdges (l ++ [w]) →
      e ∈ pathEdges l ∨ ∃ v, l.getLast? = some v ∧ e = (v, w) := by
  intro l
  induction l with
  | nil => intro w e h; exact absurd rfl h
  | cons a t ih =>
    intro w e _ he
    cases t with
    | nil =>
      right
      refine ⟨a, rfl, ?_⟩
      simpa [pathEdges] using he
    | cons b t2 =>
      have he2 : e ∈ (a, b) :: pathEdges ((b :: t2) ++ [w]) := he
      rcases List.mem_cons.mp he2 with rfl | he3
      · exact Or.inl (List.mem_cons_self _ _)
      · rcases ih w e (List.cons_ne_nil _ _) he3 with h | ⟨v, hv, hev⟩
        · exact Or.inl (pathEdges_cons_subset a _ e h)
        · refine Or.inr ⟨v, ?_, hev⟩
          rw [getLast?_cons_of_ne_nil a (b :: t2) (List.cons_ne_nil _ _)]
          exact hv

theorem dropUntil_mem_head :
    ∀ (l : List GNode) (u : GNode), u ∈ l → ∃ t, dropUntil u l = u :: t := by
  intro l
  induction l with
  | nil => intro u h; cases h
  | cons x rest ih =>
    intro u h
    by_cases hx : x = u
    · refine ⟨rest, ?_⟩
      unfold dropUntil
      rw [if_pos hx, hx]
    · rcases List.mem_cons.mp h with rfl | h2
      · exact absurd rfl hx
      · obtain ⟨t, ht⟩ := ih u h2
        refine ⟨t, ?_⟩
        unfold dropUntil
        rw [if_neg hx]
        exact ht

theorem dropUntil_suffix :
    ∀ (l : List GNode) (u : GNode), ∃ l1, l = l1 ++ dropUntil u l := by
  intro l
  induction l with
  | nil => intro u; exact ⟨[], rfl⟩
  | cons x rest ih =>
    intro u
    by_cases hx : x = u
    · refine ⟨[], ?_⟩
      unfold dropUntil
      rw [if_pos hx]
      rfl
    · obtain ⟨l1, hl1⟩ := ih u
      refine ⟨x :: l1, ?_⟩
      unfold dropUntil
      rw [if_neg hx, List.cons_append, ← hl1]

theorem sucs_mem (g : Graph) (u w : GNode) (hw : w ∈ g.sucs u) : (u, w) ∈ g.edges := by
  unfold Graph.sucs at hw
  obtain ⟨e, he, hew⟩ := List.mem_map.mp hw
  obtain ⟨hee, hdec⟩ := List.mem_filter.mp he
  have h1 : e.1 = u := of_decide_eq_true hdec
  have h2 : e = (u, w) := by
    rw [← h1, ← hew]
  rw [← h2]
  exact hee

theorem dfs_sound (g : Graph) :
    ∀ (fuel : Nat) (u : GNode) (path : List GNode) (c : List (GNode × GNode)),
      (∀ e ∈ pathEdges (path ++ [u]), e ∈ g.edges) →
      dfsFindCycle g fuel u path = some c → isCycleOf g c := by
  intro fuel
  induction fuel with
  | zero => intro u path c _ h; cases h
  | succ fuel ih =>
    intro u path c hwalk h
    unfold dfsFindCycle at h
    by_cases hu : u ∈ path
    · rw [if_pos hu] at h
      have hc : pathEdges (dropUntil u path ++ [u]) = c := Option.some.inj h
      obtain ⟨t, hdrop⟩ := dropUntil_mem_head path u hu
      obtain ⟨l1, hl1⟩ := dropUntil_suffix path u
      refine ⟨?_, ?_, ?_, ?_⟩
      · rw [← hc, hdrop, List.cons_append]
        cases t with
        | nil => exact pathEdges_ne_nil u u []
        | cons a t2 => exact pathEdges_ne_nil u a (t2 ++ [u])
      · intro e he
        rw [← hc] at he
        apply hwalk
        rw [hl1, List.append_assoc]
        exact pathEdges_suffix l1 _ e he
      · rw [← hc]
        exact pathEdges_chain _
      · rw [← hc, hdrop, List.cons_append]
        cases t with
        | nil => rfl
        | cons a t2 =>
          show ((pathEdges ((u :: a :: t2) ++ [u])).getLast?).map Prod.snd =
            ((pathEdges ((u :: a :: t2) ++ [u])).head?).map Prod.fst
          rw [pathEdges_last (u :: a :: t2) u (List.cons_ne_nil _ _)]
          rfl
    · rw [if_neg hu] at h
      obtain ⟨w, hwmem, hrec⟩ := List.exists_of_findSome?_eq_some h
      refine ih w (path ++ [u]) c ?_ hrec
      intro e he
      rcases pathEdges_append_one (path ++ [u]) w e (by simp) he with h2 | ⟨v, hv, rfl⟩
      · exact hwalk e h2
      · have hvu : v = u := by
          rw [List.getLast?_concat] at hv
          exact (Option.some.inj hv).symm
        subst hvu
        exact sucs_mem g v w hwmem

theorem findCycle_sound (g : Graph) (c : List (GNode × GNode)) :
    findCycle g = some c → isCycleOf g c := by
  intro h
  obtain ⟨v, _, hdfs⟩ := List.exists_of_findSome?_eq_some h
  refine dfs_sound g (g.nodes.length + 1) v [] c ?_ hdfs
  intro e he
  cases he


/-- C5 counterexample: in the one-process ledger where pid 1 needs one unit of
resource 0, has positive unmet need (`available[0] = 0 < 1 = need[0]`), but no
process holds resource 0, the claimed request edge `P 1 → R 0` is absent from
the built graph: the source adds a request edge only when node `R 0` already
exists, i.e. when some process has a positive allocation of that resource. -/
theorem detect_graph_claim_counterexample :
    (⟨1, [1], [0], [1]⟩ : Process) ∈ noAllocLedger.processes ∧
    0 < (Process.needed_resources ⟨1, [1], [0], [1]⟩).getD 0 0 ∧
    noAllocLedger.available_resources.getD 0 0 <
      (Process.needed_resources ⟨1, [1], [0], [1]⟩).getD 0 0 ∧
    (GNode.P 1, GNode.R 0) ∉ (buildGraph noAllocLedger).edges := by
  decide

/-- C5 (amended): the detection graph contains the allocation edge
`R j → P pid` exactly when a process with that pid holds a positive amount of
resource `j`, and the request edge `P pid → R j` exactly when a process with
that pid has positive need for resource `j` exceeding availability AND some
process holds a positive amount of resource `j` (`R j` must already be a
node); `detect_deadlock` returns the empty list whenever the graph has no
directed cycle, and otherwise the found cycle is a genuine cycle of the graph
and the result is exactly the processes whose node occurs as a source of one
of its edges. -/
theorem detect_deadlock_graph_spec (m : ResourceManager) :
    (∀ j pid, (GNode.R j, GNode.P pid) ∈ (buildGraph m).edges ↔
      ∃ p ∈ m.processes, p.pid = pid ∧ 0 < p.allocated_resources.getD j 0) ∧
    (∀ pid j, (GNode.P pid, GNode.R j) ∈ (buildGraph m).edges ↔
      ((∃ p ∈ m.processes, p.pid = pid ∧ 0 < p.needed_resources.getD j 0 ∧
          m.available_resources.getD j 0 < p.needed_resources.getD j 0) ∧
        ∃ q ∈ m.processes, 0 < q.allocated_resources.getD j 0)) ∧
    (¬ (buildGraph m).hasCycle → detectSet m = []) ∧
    (∀ c, findCycle (buildGraph m) = some c →
      isCycleOf (buildGraph m) c ∧
      detectSet m = (m.processes.enum.filter
        (fun ip => GNode.P ip.2.pid ∈ cycleSources c)).map Prod.fst) := by
  refine ⟨buildGraph_alloc_edge m, buildGraph_req_edge m, ?_, ?_⟩
  · intro hnc
    unfold detectSet
    cases hfc : findCycle (buildGraph m) with
    | none => rfl
    | some c => exact absurd ⟨c, findCycle_sound _ c hfc⟩ hnc
  · intro c hfc
    refine ⟨findCycle_sound _ c hfc, ?_⟩
    unfold detectSet
    rw [hfc]

/-- C5 witness: on the two-process circular-wait ledger, the found cycle is
`P1 → R1 → P2 → R0 → P1` and detection returns exactly the source processes
of its edges. -/
theorem detect_deadlock_graph_spec_witness :
    detectSet cycle2Ledger = ((cycle2Ledger.processes.enum.filter
      (fun ip => GNode.P ip.2.pid ∈ cycleSources
        [(GNode.P 1, GNode.R 1), (GNode.R 1, GNode.P 2),
         (GNode.P 2, GNode.R 0), (GNode.R 0, GNode.P 1)])).map Prod.fst) :=
  ((detect_deadlock_graph_spec cycle2Ledger).2.2.2
    [(GNode.P 1, GNode.R 1), (GNode.R 1, GNode.P 2),
     (GNode.P 2, GNode.R 0), (GNode.R 0, GNode.P 1)] (by decide)).2

end Deadlock
